import Mathlib

/-!
Verification of the IPv6 unique-address counter (`ipv6_counter.py`).

The Python source is shallowly embedded: Python `str` values become `List Char`,
`bytes` values become `List Nat` (one `Nat` per byte), fallible code returns
`Except String`.  File-system effects of the external-sort path are made
explicit through a small `World` state; every file operation may fail, which is
modelled by a schedule `World.faults : List Bool` consumed one entry per
operation (an empty schedule means no operation ever fails, i.e. a fault-free
run; this realises the fact that any Python file call can raise `OSError`).
-/

/-- Canonical binary key: a list of byte values (source: Python `bytes`). -/
abbrev Key := List Nat

deriving instance DecidableEq for Except

/-- Source constant `IPV6_BYTES_LEN = 16`. -/
def IPV6_BYTES_LEN : Nat := 16

/-- Source constant `TARGET_PARTITION_SIZE = 64 * 1024 * 1024`. -/
def TARGET_PARTITION_SIZE : Nat := 64 * 1024 * 1024

/-- Source constant `HASH_SEED = 0x71C5E7B3` (defined in the source, never used). -/
def HASH_SEED : Nat := 0x71C5E7B3

namespace IPv6Parser

/-- Python `str.lower()` restricted to its action character by character. -/
def pyLower (s : List Char) : List Char := s.map Char.toLower

/-- The characters Python `str.strip()` (and `int()`) remove: ASCII whitespace. -/
def isPySpace (c : Char) : Bool :=
  c = ' ' || c = '\t' || c = '\n' || c = '\r' || c.toNat = 11 || c.toNat = 12

/-- Python `str.strip()`: whitespace removed from both ends. -/
def pyStrip (s : List Char) : List Char :=
  ((s.dropWhile isPySpace).reverse.dropWhile isPySpace).reverse

/-- Python `'::' in addr`: the string contains two adjacent colons. -/
def hasDoubleColon : List Char → Bool
  | [] => false
  | [_] => false
  | a :: b :: rest => (a = ':' && b = ':') || hasDoubleColon (b :: rest)

/-- Python `s.split(c)` for a one-character separator `c`. -/
def splitOnChar (c : Char) : List Char → List (List Char)
  | [] => [[]]
  | x :: xs =>
    if x = c then [] :: splitOnChar c xs
    else
      match splitOnChar c xs with
      | [] => [[x]]
      | p :: ps => (x :: p) :: ps

/-- Python `s.split('::')`: left-to-right non-overlapping split on the
two-character separator. -/
def splitOnDoubleColon : List Char → List (List Char)
  | [] => [[]]
  | ':' :: ':' :: rest => [] :: splitOnDoubleColon rest
  | x :: xs =>
    match splitOnDoubleColon xs with
    | [] => [[x]]
    | p :: ps => (x :: p) :: ps

/-- Python `group.lstrip('0')`. -/
def lstripZeros (s : List Char) : List Char := s.dropWhile (· = '0')

/-- Value of one hexadecimal digit (either case), `none` for a non-digit. -/
def hexVal (c : Char) : Option Nat :=
  if '0' ≤ c ∧ c ≤ '9' then some (c.toNat - '0'.toNat)
  else if 'a' ≤ c ∧ c ≤ 'f' then some (c.toNat - 'a'.toNat + 10)
  else if 'A' ≤ c ∧ c ≤ 'F' then some (c.toNat - 'A'.toNat + 10)
  else none

/-- Digit scanner of Python `int(s, 16)`: hexadecimal digits with single
underscores allowed between digits (and directly after the `0x` prefix).
`allowUnd`: an underscore may appear here; `lastUnd`: the previous character
was an underscore; `seen`: at least one digit has been consumed. -/
def phdGo (acc : Nat) (allowUnd lastUnd seen : Bool) : List Char → Option Nat
  | [] => if seen && !lastUnd then some acc else none
  | c :: cs =>
    if c = '_' then (if allowUnd then phdGo acc false true seen cs else none)
    else
      match hexVal c with
      | some d => phdGo (16 * acc + d) true false true cs
      | none => none

/-- Magnitude part of Python `int(s, 16)`: an optional `0x`/`0X` prefix
followed by hexadecimal digits. -/
def pyIntHexMag : List Char → Option Nat
  | '0' :: x :: rest =>
    if x = 'x' ∨ x = 'X' then phdGo 0 true false false rest
    else phdGo 0 false false false ('0' :: x :: rest)
  | l => phdGo 0 false false false l

/-- Python `int(s, 16)`: surrounding whitespace stripped, an optional sign,
then the magnitude.  `none` models `ValueError`. -/
def pyIntHex (s : List Char) : Option Int :=
  match pyStrip s with
  | '+' :: r => (pyIntHexMag r).map (fun n => (n : Int))
  | '-' :: r => (pyIntHexMag r).map (fun n => -(n : Int))
  | r => (pyIntHexMag r).map (fun n => (n : Int))

/-- Error value for a `ValueError` raised by `int(..., 16)`. -/
def errInvalidInt : String := "invalid literal for int() with base 16"

/-- Error value for a `struct.error` raised by `struct.pack` on an
out-of-range group value. -/
def errStruct : String := "'H' format requires 0 <= number <= 65535"

/-- Error value for a wrong group count in an uncompressed address. -/
def errGroupCount : String := "wrong number of groups in IPv6 address"

/-- Error value for a malformed `'::'` usage (split not yielding two parts). -/
def errDoubleColon : String := "incorrect usage of '::' in address"

/-- Error value for too many groups in a compressed address. -/
def errTooManyGroups : String := "too many groups in compressed address"

/-- One iteration of the loop in `IPv6Parser._groups_to_bytes`: the value of
one group (`0` for an empty or `'0'` group, otherwise
`int(group.lstrip('0') or '0', 16)`). -/
def groupToVal (g : List Char) : Except String Int :=
  if g = [] ∨ g = ['0'] then .ok 0
  else
    match pyIntHex (match lstripZeros g with | [] => ['0'] | t => t) with
    | some v => .ok v
    | none => .error errInvalidInt

/-- Python `struct.pack('>H', v)`: two big-endian bytes, failing outside
`[0, 65535]`. -/
def packGroup (v : Int) : Except String Key :=
  if 0 ≤ v ∧ v ≤ 65535 then .ok [v.toNat / 256, v.toNat % 256] else .error errStruct

/-- `IPv6Parser._groups_to_bytes`: convert the list of hex groups into the
16-byte key, two bytes per group, failing at the first bad group. -/
def groups_to_bytes : List (List Char) → Except String Key
  | [] => .ok []
  | g :: rest =>
    match groupToVal g with
    | .error e => .error e
    | .ok v =>
      match packGroup v with
      | .error e => .error e
      | .ok bs =>
        match groups_to_bytes rest with
        | .error e => .error e
        | .ok bsRest => .ok (bs ++ bsRest)

/-- `IPv6Parser._expand_compressed`: expand an address containing `'::'`. -/
def expand_compressed (addr : List Char) : Except String Key :=
  match splitOnDoubleColon addr with
  | [l, r] =>
    let left := if l = [] then [] else splitOnChar ':' l
    let right := if r = [] then [] else splitOnChar ':' r
    let missing : Int := 8 - left.length - right.length
    if missing < 0 then .error errTooManyGroups
    else groups_to_bytes (left ++ List.replicate missing.toNat ['0'] ++ right)
  | _ => .error errDoubleColon

/-- `IPv6Parser.to_canonical_bytes`: lower-case and strip the line, take the
compressed branch when it contains `'::'`, otherwise require exactly eight
colon-separated groups. -/
def to_canonical_bytes (s : List Char) : Except String Key :=
  let addr := pyStrip (pyLower s)
  if hasDoubleColon addr then expand_compressed addr
  else
    let groups := splitOnChar ':' addr
    if groups.length ≠ 8 then .error errGroupCount
    else groups_to_bytes groups

end IPv6Parser

namespace FastHasher

/-- `FastHasher.hash_bytes`: 32-bit FNV-1a over the key bytes. -/
def hash_bytes (data : Key) : Nat :=
  data.foldl (fun h b => ((h ^^^ b) * 0x01000193) % 4294967296) 0x811c9dc5

/-- `FastHasher.get_partition`: hash reduced modulo the partition count. -/
def get_partition (data : Key) (num_partitions : Nat) : Nat :=
  hash_bytes data % num_partitions

end FastHasher

namespace PartitionProcessor

/-- Python `records.sort()`: ascending (byte-lexicographic) sort of the
16-byte records. -/
def pySort (records : List Key) : List Key := List.insertionSort (· ≤ ·) records

/-- The linear duplicate-skipping scan shared by both counting paths:
`if record != prev: unique_count += 1; prev = record`, with `prev`
initially `None`. -/
def scanCountGo : Option Key → List Key → Nat
  | _, [] => 0
  | prev, r :: rs => if prev = some r then scanCountGo prev rs else 1 + scanCountGo (some r) rs

/-- Count of value changes in a record stream, starting from `prev = None`. -/
def scanCount (records : List Key) : Nat := scanCountGo none records

/-- `PartitionProcessor._count_unique_in_memory`: load all records, sort,
scan once counting value changes. -/
def count_unique_in_memory (records : List Key) : Nat := scanCount (pySort records)

/-- Block size of the external sort (source: `block_size = 64 * 1024 * 1024`). -/
def block_size : Nat := 64 * 1024 * 1024

/-- Source: `records_per_block = block_size // IPV6_BYTES_LEN`. -/
def records_per_block : Nat := block_size / IPV6_BYTES_LEN

/-- Phase 1 reading loop of `_external_sort`: consume the input stream in
blocks of `records_per_block` records; the loop ends on an empty block. -/
def splitBlocks (l : List Key) : List (List Key) :=
  match l with
  | [] => []
  | x :: xs => ((x :: xs).take records_per_block) :: splitBlocks ((x :: xs).drop records_per_block)
termination_by l.length
decreasing_by
  have h : 0 < records_per_block := by decide
  simp only [List.length_drop, List.length_cons]
  omega

/-- Python tuple comparison on `(record, file_index)` heap entries. -/
def pLe (a b : Key × Nat) : Prop := a.1 < b.1 ∨ (a.1 = b.1 ∧ a.2 ≤ b.2)

instance : DecidableRel pLe := fun a b => by unfold pLe; infer_instance

instance : IsTotal (Key × Nat) pLe := by
  constructor
  intro a b
  rcases lt_trichotomy a.1 b.1 with h | h | h
  · exact Or.inl (Or.inl h)
  · rcases Nat.le_total a.2 b.2 with h2 | h2
    · exact Or.inl (Or.inr ⟨h, h2⟩)
    · exact Or.inr (Or.inr ⟨h.symm, h2⟩)
  · exact Or.inr (Or.inl h)

instance : IsTrans (Key × Nat) pLe := by
  constructor
  intro a b c hab hbc
  rcases hab with h1 | ⟨h1, h1'⟩ <;> rcases hbc with h2 | ⟨h2, h2'⟩
  · exact Or.inl (h1.trans h2)
  · exact Or.inl (h2 ▸ h1)
  · exact Or.inl (h1 ▸ h2)
  · exact Or.inr ⟨h1.trans h2, h1'.trans h2'⟩

/-- Sum of the lengths of the open run-file handles (used as the merge
loop's termination measure). -/
def sumLen (handles : List (List Key)) : Nat := (handles.map List.length).sum

theorem sumLen_set_of_getD {handles : List (List Key)} {i : Nat} {x : Key} {xs : List Key}
    (h : handles.getD i [] = x :: xs) :
    sumLen (handles.set i xs) + 1 = sumLen handles := by
  induction handles generalizing i with
  | nil => simp [List.getD] at h
  | cons hd tl ih =>
    cases i with
    | zero =>
      simp [List.getD] at h
      subst h
      simp [sumLen]
      omega
    | succ j =>
      have h' : tl.getD j [] = x :: xs := by simpa [List.getD] using h
      have := ih h'
      simp [sumLen, List.set] at this ⊢
      omega

/-- The `while heap:` merge loop of `_external_sort`, phase 2.  The heap
(`heapq` with `(record, file_index)` entries) is modelled as a list kept
sorted by `pLe`, so popping the head extracts the same unique minimum as
`heapq.heappop`; `handles` holds the not-yet-read remainder of each run
file.  The returned list is the sequence of records written to the merged
result file. -/
def mergeLoop (heap : List (Key × Nat)) (handles : List (List Key)) : List Key :=
  match heap with
  | [] => []
  | (r, i) :: hs =>
    match h : handles.getD i [] with
    | [] => r :: mergeLoop hs handles
    | x :: xs => r :: mergeLoop (List.orderedInsert pLe (x, i) hs) (handles.set i xs)
termination_by heap.length + sumLen handles
decreasing_by
  · simp only [List.length_cons]
    omega
  · have h2 := sumLen_set_of_getD h
    have hlen : (List.orderedInsert pLe (x, i) hs).length = hs.length + 1 :=
      List.orderedInsert_length pLe hs (x, i)
    simp only [List.length_cons]
    omega

/-- The heap right after the opening loop of phase 2: for each run file in
order, its first record is read and `(record, file_index)` is pushed when the
file is non-empty.  Since `pLe` totally orders the distinct entries, the
resulting heap is the sorted list of first records, built here by recursion
with an explicit starting index. -/
def initHeapGo (i : Nat) : List (List Key) → List (Key × Nat)
  | [] => []
  | [] :: rs => initHeapGo (i + 1) rs
  | (x :: _) :: rs => List.orderedInsert pLe (x, i) (initHeapGo (i + 1) rs)

/-- Initial heap over all run files. -/
def initHeap (runs : List (List Key)) : List (Key × Nat) := initHeapGo 0 runs

/-- The open handles right after the opening loop of phase 2: each run file's
cursor stands after its first record. -/
def initHandles (runs : List (List Key)) : List (List Key) := runs.map (·.drop 1)

/-- The full record sequence written to the merged result file by
`_external_sort` for a given partition stream: sorted blocks merged by the
heap loop. -/
def externalMergeSeq (l : List Key) : List Key :=
  let runs := (splitBlocks l).map pySort
  mergeLoop (initHeap runs) (initHandles runs)

end PartitionProcessor

/-- Temporary file store threaded through the external-sort path: `files`
associates each file id (from `tempfile.mkstemp`) with its record content,
`nextId` is the next fresh id, and `faults` schedules which upcoming file
operations raise an `OSError` (one entry consumed per operation; the empty
schedule is the fault-free run). -/
structure World where
  files : List (Nat × List Key)
  nextId : Nat
  faults : List Bool
deriving DecidableEq, Repr

namespace World

/-- The empty file store with no scheduled faults. -/
def init : World := ⟨[], 0, []⟩

/-- Consume one entry of the fault schedule; returns `true` when the current
file operation raises. -/
def tick (w : World) : World × Bool :=
  match w.faults with
  | [] => (w, false)
  | b :: bs => ({ w with faults := bs }, b)

/-- `tempfile.mkstemp()`: create a fresh empty temporary file. -/
def create (w : World) : World × Except String Nat :=
  let (w1, f) := w.tick
  if f then (w1, .error "I/O error: mkstemp") else
    ({ w1 with files := w1.files ++ [(w1.nextId, [])], nextId := w1.nextId + 1 },
     .ok w1.nextId)

/-- Write a record sequence to an open temporary file. -/
def writeAll (w : World) (id : Nat) (rs : List Key) : World × Except String Unit :=
  let (w1, f) := w.tick
  if f then (w1, .error "I/O error: write") else
    ({ w1 with files := w1.files.map (fun p => if p.1 = id then (p.1, p.2 ++ rs) else p) },
     .ok ())

/-- Open a temporary file and read its whole record sequence. -/
def readAll (w : World) (id : Nat) : World × Except String (List Key) :=
  let (w1, f) := w.tick
  if f then (w1, .error "I/O error: read") else
    match w1.files.lookup id with
    | some rs => (w1, .ok rs)
    | none => (w1, .error "I/O error: file not found")

/-- `os.unlink`: delete a temporary file. -/
def unlink (w : World) (id : Nat) : World × Except String Unit :=
  let (w1, f) := w.tick
  if f then (w1, .error "I/O error: unlink") else
    ({ w1 with files := w1.files.filter (fun p => p.1 ≠ id) }, .ok ())

/-- Well-formedness of the file store: every stored id is below `nextId`, so
a fresh id never collides with an existing file (as `tempfile.mkstemp`
guarantees fresh paths). -/
def WF (w : World) : Prop := ∀ p ∈ w.files, p.1 < w.nextId

/-- The initial world is well-formed: it holds no files at all. -/
theorem WF_init : WF init := fun p hp => absurd hp (List.not_mem_nil p)

end World

namespace PartitionProcessor

/-- Phase 1 of `_external_sort`: for each block, create a run file and write
the sorted block to it; any failure propagates at once, leaving the files
already created in place. -/
def writeRuns (w : World) (blocks : List (List Key)) : World × Except String (List Nat) :=
  match blocks with
  | [] => (w, .ok [])
  | b :: bs =>
    match w.create with
    | (w1, .error e) => (w1, .error e)
    | (w1, .ok id) =>
      match w1.writeAll id (pySort b) with
      | (w2, .error e) => (w2, .error e)
      | (w2, .ok _) =>
        match writeRuns w2 bs with
        | (w3, .error e) => (w3, .error e)
        | (w3, .ok ids) => (w3, .ok (id :: ids))

/-- Opening loop of phase 2 of `_external_sort`: open every run file and read
its content; any failure propagates at once. -/
def readRuns (w : World) (ids : List Nat) : World × Except String (List (List Key)) :=
  match ids with
  | [] => (w, .ok [])
  | id :: rest =>
    match w.readAll id with
    | (w1, .error e) => (w1, .error e)
    | (w1, .ok rs) =>
      match readRuns w1 rest with
      | (w2, .error e) => (w2, .error e)
      | (w2, .ok rss) => (w2, .ok (rs :: rss))

/-- Final loop of phase 2 of `_external_sort`: delete every run file. -/
def unlinkAll (w : World) (ids : List Nat) : World × Except String Unit :=
  match ids with
  | [] => (w, .ok ())
  | id :: rest =>
    match w.unlink id with
    | (w1, .error e) => (w1, .error e)
    | (w1, .ok _) => unlinkAll w1 rest

/-- `PartitionProcessor._external_sort`: split the stream into sorted run
files, create the result file, merge all runs into it via the heap loop,
then delete the run files; returns the result file's id.  An exception at
any step propagates immediately — in particular a failure during the merge
phase skips the run-file deletion, exactly as in the source, which has no
`try`/`finally` around it. -/
def external_sort (w : World) (input : List Key) : World × Except String Nat :=
  match writeRuns w (splitBlocks input) with
  | (w1, .error e) => (w1, .error e)
  | (w1, .ok ids) =>
    match w1.create with
    | (w2, .error e) => (w2, .error e)
    | (w2, .ok resultId) =>
      match readRuns w2 ids with
      | (w3, .error e) => (w3, .error e)
      | (w3, .ok runs) =>
        match w3.writeAll resultId (mergeLoop (initHeap runs) (initHandles runs)) with
        | (w4, .error e) => (w4, .error e)
        | (w4, .ok _) =>
          match unlinkAll w4 ids with
          | (w5, .error e) => (w5, .error e)
          | (w5, .ok _) => (w5, .ok resultId)

/-- `PartitionProcessor._count_unique_external`: externally sort the stream,
scan the sorted result file counting value changes, delete it, and return
the count. -/
def count_unique_external (w : World) (input : List Key) : World × Except String Nat :=
  match external_sort w input with
  | (w1, .error e) => (w1, .error e)
  | (w1, .ok resultId) =>
    match w1.readAll resultId with
    | (w2, .error e) => (w2, .error e)
    | (w2, .ok rs) =>
      match w2.unlink resultId with
      | (w3, .error e) => (w3, .error e)
      | (w3, .ok _) => (w3, .ok (scanCount rs))

/-- `PartitionProcessor.count_unique`: choose the in-memory path when the
partition file size (16 bytes per record) is at most `TARGET_PARTITION_SIZE`,
otherwise the external path.  The partition task runs in the fault-free
world (`World.init`); the `Except` result carries any failure of the task. -/
def count_unique (records : List Key) : Except String Nat :=
  if IPV6_BYTES_LEN * records.length ≤ TARGET_PARTITION_SIZE then
    .ok (count_unique_in_memory records)
  else
    (count_unique_external World.init records).2

end PartitionProcessor

/-- `IPv6UniqueCounter`: holds the `--memory-limit` argument, which the
source stores in `__init__` and never reads again. -/
structure IPv6UniqueCounter where
  memory_limit_mb : Nat

namespace IPv6UniqueCounter

/-- `IPv6UniqueCounter._calculate_num_partitions`: estimate the record count
from the file size and an assumed average line length of 40 bytes, divide by
the records-per-partition target, clamp to `[1, 256]`. -/
def calculate_num_partitions (file_size : Nat) : Nat :=
  let estimated_records := file_size / 40
  let target_records_per_partition := TARGET_PARTITION_SIZE / IPV6_BYTES_LEN
  min (max 1 (estimated_records / target_records_per_partition)) 256

/-- `IPv6UniqueCounter._process_line`: parse the line; on success append the
key to the partition selected by the hash, on a parse error print a
diagnostic and leave the partitions unchanged (the run continues). -/
def process_line (line : List Char) (partitions : List (List Key)) (num_partitions : Nat) :
    List (List Key) :=
  match IPv6Parser.to_canonical_bytes line with
  | .error _ => partitions
  | .ok k =>
    let p := FastHasher.get_partition k num_partitions
    partitions.set p (partitions.getD p [] ++ [k])

/-- `IPv6UniqueCounter._distribute_addresses`: split the input bytes on
newlines (the final line needs no terminator), strip each line, skip empty
lines, and feed each remaining line to `process_line`, starting from
`num_partitions` empty partition files. -/
def distribute_addresses (input : List Char) (num_partitions : Nat) : List (List Key) :=
  (((IPv6Parser.splitOnChar '\n' input).map IPv6Parser.pyStrip).filter (· ≠ [])).foldl
    (fun parts line => process_line line parts num_partitions)
    (List.replicate num_partitions [])

/-- `IPv6UniqueCounter._process_partitions`: collect every partition task's
result; a task that raised is reported to stderr and contributes nothing to
the total — the loop continues and the sum of the successful tasks is
returned. -/
def process_partitions (results : List (Except String Nat)) : Nat :=
  results.foldl (fun total r => match r with | .ok n => total + n | .error _ => total) 0

/-- `IPv6UniqueCounter.count_unique`: full run.  `mmap.mmap` raises
`ValueError` on an empty input file, which propagates out of the run before
any output is written; otherwise distribute the parsed keys over
`_calculate_num_partitions` partitions, count each partition, and return the
total written to the output file. -/
def count_unique (_c : IPv6UniqueCounter) (input : List Char) : Except String Nat :=
  if input = [] then .error "cannot mmap an empty file"
  else
    .ok (process_partitions
      ((distribute_addresses input (calculate_num_partitions input.length)).map
        PartitionProcessor.count_unique))

end IPv6UniqueCounter

/-- The canonical keys of all successfully parsed lines of an input, in input
order: the exact-set reference against which the pipeline's total is judged. -/
def parsedKeys (input : List Char) : List Key :=
  (((IPv6Parser.splitOnChar '\n' input).map IPv6Parser.pyStrip).filter (· ≠ [])).filterMap
    (fun line => (IPv6Parser.to_canonical_bytes line).toOption)

/-- The partition contents described directly as hash fibres: partition `p`
holds, in input order, the keys whose hash lands on `p`. -/
def partitionsOfKeys (keys : List Key) (num_partitions : Nat) : List (List Key) :=
  (List.range num_partitions).map
    (fun p => keys.filter (fun k => FastHasher.get_partition k num_partitions = p))

namespace PartitionProcessor

theorem scanCountGo_sorted (l : List Key) (hl : l.Sorted (· ≤ ·)) :
    scanCountGo none l = l.toFinset.card ∧
    ∀ p, (∀ x ∈ l, p ≤ x) → scanCountGo (some p) l = (l.toFinset.erase p).card := by
  induction l with
  | nil => simp [scanCountGo]
  | cons x xs ih =>
    rw [List.sorted_cons] at hl
    obtain ⟨hx, hxs⟩ := hl
    obtain ⟨ihNone, ihSome⟩ := ih hxs
    have hcard : ∀ t : Finset Key, (insert x t).card = (t.erase x).card + 1 := by
      intro t
      rw [← Finset.card_erase_add_one (Finset.mem_insert_self x t),
        Finset.erase_insert_eq_erase]
    constructor
    · show scanCountGo none (x :: xs) = _
      have : scanCountGo none (x :: xs) = 1 + scanCountGo (some x) xs := by
        simp [scanCountGo]
      rw [this, ihSome x hx, List.toFinset_cons, hcard]
      omega
    · intro p hp
      by_cases hpx : p = x
      · subst hpx
        have : scanCountGo (some p) (p :: xs) = scanCountGo (some p) xs := by
          simp [scanCountGo]
        rw [this, ihSome p (fun y hy => hx y hy), List.toFinset_cons,
          Finset.erase_insert_eq_erase]
      · have hstep : scanCountGo (some p) (x :: xs) = 1 + scanCountGo (some x) xs := by
          simp [scanCountGo, Option.some_inj, hpx]
        have hplt : p < x := lt_of_le_of_ne (hp x (List.mem_cons_self x xs)) hpx
        have hpnot : p ∉ (x :: xs).toFinset := by
          simp only [List.toFinset_cons, Finset.mem_insert, List.mem_toFinset]
          push_neg
          refine ⟨hpx, fun hmem => ?_⟩
          exact absurd (lt_of_lt_of_le hplt (hx p hmem)) (lt_irrefl p)
        rw [hstep, ihSome x hx, Finset.erase_eq_of_not_mem hpnot, List.toFinset_cons,
          hcard]
        omega

/-- The duplicate-skipping scan over a sorted record list counts exactly the
distinct records. -/
theorem scanCount_sorted (l : List Key) (hl : l.Sorted (· ≤ ·)) :
    scanCount l = l.toFinset.card :=
  (scanCountGo_sorted l hl).1

/-- The in-memory counting path returns exactly the number of distinct
records. -/
theorem count_unique_in_memory_eq_card (l : List Key) :
    count_unique_in_memory l = l.toFinset.card := by
  unfold count_unique_in_memory pySort
  rw [scanCount_sorted _ (List.sorted_insertionSort _ l),
    List.toFinset_eq_of_perm _ _ (List.perm_insertionSort _ l)]

theorem pLe_fst {a b : Key × Nat} (h : pLe a b) : a.1 ≤ b.1 := by
  rcases h with h | ⟨h, _⟩
  · exact le_of_lt h
  · exact le_of_eq h

theorem getD_lt_length {α : Type} {l : List (List α)} {i : Nat} {x : α} {xs : List α}
    (h : l.getD i [] = x :: xs) : i < l.length := by
  by_contra hge
  rw [List.getD_eq_default] at h
  · exact List.noConfusion h
  · omega

theorem getD_set_self {α : Type} (l : List (List α)) (i : Nat) (v : List α)
    (h : i < l.length) : (l.set i v).getD i [] = v := by
  induction l generalizing i with
  | nil => simp at h
  | cons hd tl ih =>
    cases i with
    | zero => simp [List.getD]
    | succ j => simpa [List.getD] using ih j (by simpa using h)

theorem getD_set_other {α : Type} (l : List (List α)) (i j : Nat) (v : List α)
    (h : j ≠ i) : (l.set i v).getD j [] = l.getD j [] := by
  induction l generalizing i j with
  | nil => simp
  | cons hd tl ih =>
    cases i with
    | zero =>
      cases j with
      | zero => exact absurd rfl h
      | succ k => simp [List.getD]
    | succ i' =>
      cases j with
      | zero => simp [List.getD]
      | succ k => simpa [List.getD] using ih i' k (by omega)

theorem getD_mem {α : Type} {l : List (List α)} {i : Nat} (h : i < l.length) :
    l.getD i [] ∈ l := by
  rw [List.getD_eq_getElem _ _ h]
  exact List.getElem_mem h

theorem flatten_set_perm {l : List (List Key)} {i : Nat} {x : Key} {xs : List Key}
    (h : l.getD i [] = x :: xs) : l.flatten.Perm (x :: (l.set i xs).flatten) := by
  induction l generalizing i with
  | nil => simp [List.getD] at h
  | cons hd tl ih =>
    cases i with
    | zero =>
      simp only [List.getD] at h
      subst h
      simp
    | succ j =>
      have h' : tl.getD j [] = x :: xs := by simpa [List.getD] using h
      have hperm := ih h'
      simp only [List.set, List.flatten_cons]
      have h1 : (hd ++ tl.flatten).Perm (hd ++ (x :: (tl.set j xs).flatten)) :=
        hperm.append_left hd
      exact h1.trans List.perm_middle

theorem flatten_eq_nil_of_getD {l : List (List Key)} (h : ∀ j, l.getD j [] = []) :
    l.flatten = [] := by
  induction l with
  | nil => rfl
  | cons hd tl ih =>
    have h0 : hd = [] := h 0
    have htl : ∀ j, tl.getD j [] = [] := fun j => h (j + 1)
    simp [h0, ih htl]

theorem orderedInsert_head_cases {a : Key × Nat} {l : List (Key × Nat)} {b : Key × Nat}
    {rest : List (Key × Nat)} (h : List.orderedInsert pLe a l = b :: rest) :
    b = a ∨ ∃ t, l = b :: t := by
  cases l with
  | nil =>
    simp [List.orderedInsert] at h
    exact Or.inl h.1.symm
  | cons y ys =>
    by_cases hple : pLe a y
    · simp [List.orderedInsert, hple] at h
      exact Or.inl h.1.symm
    · simp [List.orderedInsert, hple] at h
      exact Or.inr ⟨ys, by rw [h.1]⟩

/-- Invariant of the k-way merge loop: the heap is sorted (so its head is the
global minimum), every heap entry is a lower bound of its run's unread
remainder, all remainders are sorted, run indices occur at most once, and a
run absent from the heap is fully consumed. -/
structure MergeInv (heap : List (Key × Nat)) (handles : List (List Key)) : Prop where
  sortedHeap : heap.Sorted pLe
  bound : ∀ e ∈ heap, ∀ y ∈ handles.getD e.2 [], e.1 ≤ y
  handlesSorted : ∀ h ∈ handles, h.Sorted (· ≤ ·)
  nodupIdx : (heap.map Prod.snd).Nodup
  exhausted : ∀ j, (∀ r, (r, j) ∉ heap) → handles.getD j [] = []

/-- Correctness of the merge loop: under the invariant it emits a sorted
permutation of all records still held in the heap and the run remainders,
and every emitted record is at least the heap's minimum. -/
theorem mergeLoop_spec (heap : List (Key × Nat)) (handles : List (List Key))
    (inv : MergeInv heap handles) :
    (mergeLoop heap handles).Perm (heap.map Prod.fst ++ handles.flatten) ∧
    (mergeLoop heap handles).Sorted (· ≤ ·) ∧
    (∀ e, heap.head? = some e → ∀ z ∈ mergeLoop heap handles, e.1 ≤ z) := by
  induction heap, handles using mergeLoop.induct with
  | case1 handles =>
    refine ⟨?_, by simp [mergeLoop], by intro e he; simp at he⟩
    have : handles.flatten = [] :=
      flatten_eq_nil_of_getD (fun j => inv.exhausted j (fun r hmem => by simp at hmem))
    simp [mergeLoop, this]
  | case2 handles r i hs hget ih =>
    have hsorted := inv.sortedHeap
    rw [List.sorted_cons] at hsorted
    obtain ⟨hhead, hstail⟩ := hsorted
    have invTail : MergeInv hs handles := by
      refine ⟨hstail, ?_, inv.handlesSorted, ?_, ?_⟩
      · exact fun e he => inv.bound e (List.mem_cons_of_mem _ he)
      · exact (List.nodup_cons.mp inv.nodupIdx).2
      · intro j hj
        by_cases hji : j = i
        · subst hji; exact hget
        · refine inv.exhausted j (fun r' hmem => ?_)
          rcases List.mem_cons.mp hmem with heq | hmem'
          · injection heq with h1 h2
            exact hji h2
          · exact hj r' hmem'
    obtain ⟨ihPerm, ihSorted, ihBound⟩ := ih invTail
    have hunfold : mergeLoop ((r, i) :: hs) handles = r :: mergeLoop hs handles := by
      rw [mergeLoop, hget]
    have hble : ∀ z ∈ mergeLoop hs handles, r ≤ z := by
      intro z hz
      cases hhs : hs with
      | nil => rw [hhs] at hz; simp [mergeLoop] at hz
      | cons e tl =>
        have hbnd := ihBound e (by rw [hhs]; rfl) z hz
        have hre : r ≤ e.1 :=
          pLe_fst (hhead e (by rw [hhs]; exact List.mem_cons_self _ _))
        exact le_trans hre hbnd
    refine ⟨?_, ?_, ?_⟩
    · rw [hunfold]
      simpa using ihPerm.cons r
    · rw [hunfold, List.sorted_cons]
      exact ⟨hble, ihSorted⟩
    · intro e he z hz
      simp only [List.head?_cons, Option.some_inj] at he
      rw [hunfold] at hz
      rcases List.mem_cons.mp hz with hzr | hz'
      · rw [hzr, ← he]
      · rw [← he]
        exact hble z hz'
  | case3 handles r i hs x xs hget ih =>
    have hsorted := inv.sortedHeap
    rw [List.sorted_cons] at hsorted
    obtain ⟨hhead, hstail⟩ := hsorted
    have hilen : i < handles.length := getD_lt_length hget
    have hnodup := inv.nodupIdx
    rw [List.map_cons, List.nodup_cons] at hnodup
    have hinotin : i ∉ hs.map Prod.snd := hnodup.1
    have hrunSorted : (x :: xs).Sorted (· ≤ ·) := by
      have := inv.handlesSorted _ (getD_mem hilen)
      rwa [hget] at this
    have hxxs : ∀ y ∈ xs, x ≤ y := (List.sorted_cons.mp hrunSorted).1
    have hrx : r ≤ x := inv.bound (r, i) (List.mem_cons_self _ _) x (by
      rw [hget]; exact List.mem_cons_self _ _)
    have hperm := List.perm_orderedInsert pLe (x, i) hs
    have invNew : MergeInv (List.orderedInsert pLe (x, i) hs) (handles.set i xs) := by
      refine ⟨List.Sorted.orderedInsert _ _ hstail, ?_, ?_, ?_, ?_⟩
      · intro e he y hy
        rcases List.mem_cons.mp (hperm.mem_iff.mp he) with heq | hmem
        · subst heq
          rw [getD_set_self _ _ _ hilen] at hy
          exact hxxs y hy
        · have hji : e.2 ≠ i := by
            intro hcontra
            exact hinotin (hcontra ▸ List.mem_map_of_mem Prod.snd hmem)
          rw [getD_set_other _ _ _ _ hji] at hy
          exact inv.bound e (List.mem_cons_of_mem _ hmem) y hy
      · intro h hmem
        rcases List.mem_or_eq_of_mem_set hmem with hmem' | heq
        · exact inv.handlesSorted h hmem'
        · subst heq
          exact (List.sorted_cons.mp hrunSorted).2
      · have hp2 : ((List.orderedInsert pLe (x, i) hs).map Prod.snd).Perm
            (((x, i) :: hs).map Prod.snd) := hperm.map Prod.snd
        refine hp2.nodup_iff.mpr ?_
        simp only [List.map_cons]
        exact List.nodup_cons.mpr ⟨hinotin, hnodup.2⟩
      · intro j hj
        have hjne : j ≠ i := by
          intro hcontra
          exact hj x (hcontra ▸ hperm.mem_iff.mpr (List.mem_cons_self _ _))
        rw [getD_set_other _ _ _ _ hjne]
        refine inv.exhausted j (fun r' hmem => ?_)
        rcases List.mem_cons.mp hmem with heq | hmem'
        · injection heq with h1 h2
          exact hjne h2
        · exact hj r' (hperm.mem_iff.mpr (List.mem_cons_of_mem _ hmem'))
    obtain ⟨ihPerm, ihSorted, ihBound⟩ := ih invNew
    have hunfold : mergeLoop ((r, i) :: hs) handles =
        r :: mergeLoop (List.orderedInsert pLe (x, i) hs) (handles.set i xs) := by
      rw [mergeLoop, hget]
    have hble : ∀ z ∈ mergeLoop (List.orderedInsert pLe (x, i) hs) (handles.set i xs),
        r ≤ z := by
      intro z hz
      cases hoi : List.orderedInsert pLe (x, i) hs with
      | nil =>
        exact absurd (hperm.symm.mem_iff.mp (List.mem_cons_self (x, i) hs))
          (by rw [hoi]; simp)
      | cons e tl =>
        rw [hoi] at hz
        have hze := (hoi ▸ ihBound) e (by rfl) z hz
        have hre : r ≤ e.1 := by
          rcases orderedInsert_head_cases hoi with heq | ⟨t, ht⟩
          · rw [heq]; exact hrx
          · exact pLe_fst (hhead e (by rw [ht]; exact List.mem_cons_self _ _))
        exact le_trans hre hze
    refine ⟨?_, ?_, ?_⟩
    · rw [hunfold]
      have h1 : (mergeLoop (List.orderedInsert pLe (x, i) hs) (handles.set i xs)).Perm
          (((x, i) :: hs).map Prod.fst ++ (handles.set i xs).flatten) :=
        ihPerm.trans ((hperm.map Prod.fst).append_right _)
      have h2 : handles.flatten.Perm (x :: (handles.set i xs).flatten) :=
        flatten_set_perm hget
      have step1 : (r :: mergeLoop (List.orderedInsert pLe (x, i) hs)
          (handles.set i xs)).Perm
          (r :: (x :: hs.map Prod.fst ++ (handles.set i xs).flatten)) := by
        refine List.Perm.cons r (h1.trans ?_)
        simp
      have step2 : (r :: (x :: hs.map Prod.fst ++ (handles.set i xs).flatten)).Perm
          (r :: (hs.map Prod.fst ++ x :: (handles.set i xs).flatten)) :=
        List.Perm.cons r List.perm_middle.symm
      have step3 : (r :: (hs.map Prod.fst ++ x :: (handles.set i xs).flatten)).Perm
          (r :: (hs.map Prod.fst ++ handles.flatten)) :=
        List.Perm.cons r ((h2.symm).append_left (hs.map Prod.fst))
      have := (step1.trans step2).trans step3
      simpa using this
    · rw [hunfold, List.sorted_cons]
      exact ⟨hble, ihSorted⟩
    · intro e he z hz
      simp only [List.head?_cons, Option.some_inj] at he
      rw [hunfold] at hz
      rcases List.mem_cons.mp hz with hzr | hz'
      · rw [hzr, ← he]
      · rw [← he]
        exact hble z hz'

theorem initHeapGo_mem {i : Nat} {rs : List (List Key)} {e : Key × Nat}
    (h : e ∈ initHeapGo i rs) :
    i ≤ e.2 ∧ ∃ t, rs.getD (e.2 - i) [] = e.1 :: t := by
  induction rs generalizing i with
  | nil => simp [initHeapGo] at h
  | cons hd tl ih =>
    cases hd with
    | nil =>
      obtain ⟨h1, t, h2⟩ := ih (by simpa [initHeapGo] using h)
      refine ⟨by omega, t, ?_⟩
      have : e.2 - i = (e.2 - (i + 1)) + 1 := by omega
      rw [this]
      simpa [List.getD] using h2
    | cons x rest =>
      rw [initHeapGo] at h
      rcases List.mem_cons.mp ((List.perm_orderedInsert pLe (x, i) _).mem_iff.mp h) with
        heq | hmem
      · subst heq
        exact ⟨le_refl i, rest, by simp [List.getD]⟩
      · obtain ⟨h1, t, h2⟩ := ih hmem
        refine ⟨by omega, t, ?_⟩
        have : e.2 - i = (e.2 - (i + 1)) + 1 := by omega
        rw [this]
        simpa [List.getD] using h2

theorem initHeapGo_complete {i j : Nat} {rs : List (List Key)} {x : Key} {t : List Key}
    (h : rs.getD j [] = x :: t) : (x, i + j) ∈ initHeapGo i rs := by
  induction rs generalizing i j with
  | nil => simp [List.getD] at h
  | cons hd tl ih =>
    cases j with
    | zero =>
      simp only [List.getD] at h
      subst h
      rw [initHeapGo]
      exact (List.perm_orderedInsert pLe (x, i) _).mem_iff.mpr
        (by simpa using Or.inl rfl)
    | succ j' =>
      have h' : tl.getD j' [] = x :: t := by simpa [List.getD] using h
      have := ih (i := i + 1) h'
      have harith : i + 1 + j' = i + (j' + 1) := by omega
      cases hd with
      | nil => simpa [initHeapGo, harith] using this
      | cons y rest =>
        rw [initHeapGo]
        refine (List.perm_orderedInsert pLe (y, i) _).mem_iff.mpr
          (List.mem_cons_of_mem _ ?_)
        rwa [harith] at this

theorem initHeapGo_sorted (i : Nat) (rs : List (List Key)) :
    (initHeapGo i rs).Sorted pLe := by
  induction rs generalizing i with
  | nil => simp [initHeapGo]
  | cons hd tl ih =>
    cases hd with
    | nil => simpa [initHeapGo] using ih (i + 1)
    | cons x rest => exact List.Sorted.orderedInsert _ _ (ih (i + 1))

theorem initHeapGo_nodup (i : Nat) (rs : List (List Key)) :
    ((initHeapGo i rs).map Prod.snd).Nodup := by
  induction rs generalizing i with
  | nil => simp [initHeapGo]
  | cons hd tl ih =>
    cases hd with
    | nil => simpa [initHeapGo] using ih (i + 1)
    | cons x rest =>
      rw [initHeapGo]
      have hp : ((List.orderedInsert pLe (x, i) (initHeapGo (i + 1) tl)).map Prod.snd).Perm
          (((x, i) :: initHeapGo (i + 1) tl).map Prod.snd) :=
        (List.perm_orderedInsert pLe (x, i) _).map Prod.snd
      refine hp.nodup_iff.mpr ?_
      rw [List.map_cons, List.nodup_cons]
      refine ⟨fun hmem => ?_, ih (i + 1)⟩
      obtain ⟨e, he, he2⟩ := List.mem_map.mp hmem
      have := (initHeapGo_mem he).1
      omega

theorem initHeapGo_fst_perm (i : Nat) (rs : List (List Key)) :
    ((initHeapGo i rs).map Prod.fst).Perm (rs.filterMap List.head?) := by
  induction rs generalizing i with
  | nil => simp [initHeapGo]
  | cons hd tl ih =>
    cases hd with
    | nil => simpa [initHeapGo] using ih (i + 1)
    | cons x rest =>
      rw [initHeapGo]
      have hp : ((List.orderedInsert pLe (x, i) (initHeapGo (i + 1) tl)).map Prod.fst).Perm
          (((x, i) :: initHeapGo (i + 1) tl).map Prod.fst) :=
        (List.perm_orderedInsert pLe (x, i) _).map Prod.fst
      refine hp.trans ?_
      rw [List.map_cons]
      simpa using (ih (i + 1)).cons x

theorem filterMap_head_flatten_drop (rs : List (List Key)) :
    (rs.filterMap List.head? ++ (rs.map (·.drop 1)).flatten).Perm rs.flatten := by
  induction rs with
  | nil => simp
  | cons hd tl ih =>
    cases hd with
    | nil => simpa using ih
    | cons x rest =>
      simp only [List.filterMap_cons, List.head?_cons, List.map_cons, List.flatten_cons,
        List.drop_succ_cons, List.drop_zero, List.cons_append]
      refine List.Perm.cons x ?_
      have h1 : (tl.filterMap List.head? ++ (rest ++ (tl.map (·.drop 1)).flatten)).Perm
          ((tl.filterMap List.head? ++ rest) ++ (tl.map (·.drop 1)).flatten) := by
        rw [List.append_assoc]
      have h2 : ((tl.filterMap List.head? ++ rest) ++ (tl.map (·.drop 1)).flatten).Perm
          ((rest ++ tl.filterMap List.head?) ++ (tl.map (·.drop 1)).flatten) :=
        List.perm_append_comm.append_right _
      have h3 : ((rest ++ tl.filterMap List.head?) ++ (tl.map (·.drop 1)).flatten).Perm
          (rest ++ (tl.filterMap List.head? ++ (tl.map (·.drop 1)).flatten)) := by
        rw [List.append_assoc]
      exact ((h1.trans h2).trans h3).trans (ih.append_left rest)

theorem getD_map_drop (rs : List (List Key)) (j : Nat) :
    (rs.map (·.drop 1)).getD j [] = (rs.getD j []).drop 1 := by
  induction rs generalizing j with
  | nil => simp
  | cons hd tl ih =>
    cases j with
    | zero => simp [List.getD]
    | succ j' => simpa [List.getD] using ih j'

/-- The initial heap and handles satisfy the merge invariant whenever every
run is sorted. -/
theorem initInv (runs : List (List Key)) (hruns : ∀ run ∈ runs, run.Sorted (· ≤ ·)) :
    MergeInv (initHeap runs) (initHandles runs) := by
  refine ⟨initHeapGo_sorted 0 runs, ?_, ?_, initHeapGo_nodup 0 runs, ?_⟩
  · intro e he y hy
    obtain ⟨_, t, hget⟩ := initHeapGo_mem he
    rw [Nat.sub_zero] at hget
    rw [initHandles, getD_map_drop, hget] at hy
    simp only [List.drop_one, List.tail_cons] at hy
    have hmem : e.1 :: t ∈ runs := by
      rw [← hget]
      exact getD_mem (getD_lt_length hget)
    exact (List.sorted_cons.mp (hruns _ hmem)).1 y hy
  · intro h hmem
    obtain ⟨run, hrun, hdrop⟩ := List.mem_map.mp hmem
    subst hdrop
    exact (hruns run hrun).sublist (List.drop_sublist 1 run)
  · intro j hj
    rw [initHandles, getD_map_drop]
    cases hcase : runs.getD j [] with
    | nil => simp
    | cons x t =>
      exact absurd (by simpa using initHeapGo_complete (i := 0) hcase) (by simpa using hj x)

theorem splitBlocks_flatten (l : List Key) : (splitBlocks l).flatten = l := by
  induction l using splitBlocks.induct with
  | case1 => simp [splitBlocks]
  | case2 x xs ih =>
    rw [splitBlocks]
    simp only [List.flatten_cons, ih, List.take_append_drop]

theorem map_pySort_flatten_perm (bs : List (List Key)) :
    ((bs.map pySort).flatten).Perm bs.flatten := by
  induction bs with
  | nil => simp
  | cons hd tl ih =>
    simp only [List.map_cons, List.flatten_cons]
    exact (List.perm_insertionSort _ hd).append ih

/-- The record sequence written to the merged result file is a sorted
permutation of the partition stream. -/
theorem externalMergeSeq_spec (l : List Key) :
    (externalMergeSeq l).Perm l ∧ (externalMergeSeq l).Sorted (· ≤ ·) := by
  unfold externalMergeSeq
  have hruns : ∀ run ∈ (splitBlocks l).map pySort, run.Sorted (· ≤ ·) := by
    intro run hrun
    obtain ⟨b, _, hb⟩ := List.mem_map.mp hrun
    subst hb
    exact List.sorted_insertionSort _ b
  obtain ⟨hperm, hsorted, _⟩ := mergeLoop_spec _ _ (initInv _ hruns)
  refine ⟨?_, hsorted⟩
  refine hperm.trans ?_
  have h1 := (initHeapGo_fst_perm 0 ((splitBlocks l).map pySort)).append_right
    ((initHandles ((splitBlocks l).map pySort)).flatten)
  refine (h1.trans (filterMap_head_flatten_drop _)).trans ?_
  have h4 : (splitBlocks l).flatten.Perm l := by rw [splitBlocks_flatten]
  exact (map_pySort_flatten_perm _).trans h4

/-- Scanning the merged sequence counts exactly the distinct records of the
partition stream. -/
theorem scanCount_externalMergeSeq (l : List Key) :
    scanCount (externalMergeSeq l) = l.toFinset.card := by
  obtain ⟨hperm, hsorted⟩ := externalMergeSeq_spec l
  rw [scanCount_sorted _ hsorted, List.toFinset_eq_of_perm _ _ hperm]

end PartitionProcessor

namespace World

theorem tick_nofault {w : World} (h : w.faults = []) : w.tick = (w, false) := by
  cases w with
  | mk files nextId faults =>
    cases h
    rfl

theorem create_nofault {w : World} (h : w.faults = []) :
    w.create = (⟨w.files ++ [(w.nextId, [])], w.nextId + 1, []⟩, .ok w.nextId) := by
  rw [create, tick_nofault h]
  cases w with
  | mk files nextId faults =>
    cases h
    rfl

theorem writeAll_nofault {w : World} (h : w.faults = []) (id : Nat) (rs : List Key) :
    w.writeAll id rs =
      (⟨w.files.map (fun p => if p.1 = id then (p.1, p.2 ++ rs) else p), w.nextId, []⟩,
       .ok ()) := by
  rw [writeAll, tick_nofault h]
  cases w with
  | mk files nextId faults =>
    cases h
    rfl

theorem readAll_nofault {w : World} (h : w.faults = []) (id : Nat) (rs : List Key)
    (hlook : w.files.lookup id = some rs) : w.readAll id = (w, .ok rs) := by
  rw [readAll, tick_nofault h]
  simp [hlook]

theorem unlink_nofault {w : World} (h : w.faults = []) (id : Nat) :
    w.unlink id = (⟨w.files.filter (fun p => p.1 ≠ id), w.nextId, []⟩, .ok ()) := by
  rw [unlink, tick_nofault h]
  cases w with
  | mk files nextId faults =>
    cases h
    rfl

set_option maxRecDepth 4000 in
theorem map_update_append (files : List (Nat × List Key)) (id : Nat) (rs : List Key)
    (h : ∀ p ∈ files, p.1 ≠ id) :
    (files ++ [(id, [])]).map
        (fun p : Nat × List Key => if p.1 = id then (p.1, p.2 ++ rs) else p) =
      files ++ [(id, rs)] := by
  induction files with
  | nil =>
    simp only [List.nil_append, List.map_cons, List.map_nil]
    norm_num
  | cons hd tl ih =>
    have hne : hd.1 ≠ id := h hd (List.mem_cons_self _ _)
    simp only [List.cons_append, List.map_cons, if_neg hne]
    rw [ih (fun p hp => h p (List.mem_cons_of_mem _ hp))]

theorem lookup_append_right {A B : List (Nat × List Key)} {k : Nat}
    (h : ∀ p ∈ A, p.1 ≠ k) : (A ++ B).lookup k = B.lookup k := by
  induction A with
  | nil => simp
  | cons hd tl ih =>
    obtain ⟨a, b⟩ := hd
    have hne : a ≠ k := h (a, b) (List.mem_cons_self _ _)
    have hbeq : (k == a) = false := beq_eq_false_iff_ne.mpr (Ne.symm hne)
    simp only [List.cons_append, List.lookup_cons, hbeq, cond_false]
    exact ih (fun p hp => h p (List.mem_cons_of_mem _ hp))

theorem mem_range'_bounds {m s n : Nat} (h : m ∈ List.range' s n) :
    s ≤ m ∧ m < s + n := by
  obtain ⟨i, hi, rfl⟩ := List.mem_range'.mp h
  omega

end World

namespace PartitionProcessor

theorem writeRuns_spec (blocks : List (List Key)) (w : World) (hf : w.faults = [])
    (hwf : World.WF w) :
    writeRuns w blocks =
      ({ files := w.files ++ (List.range' w.nextId blocks.length).zip (blocks.map pySort),
         nextId := w.nextId + blocks.length, faults := [] },
       .ok (List.range' w.nextId blocks.length)) := by
  induction blocks generalizing w with
  | nil =>
    cases w with
    | mk files nextId faults =>
      cases hf
      simp [writeRuns]
  | cons b bs ih =>
    have hupd := World.map_update_append w.files w.nextId (pySort b)
      (fun p hp => Nat.ne_of_lt (hwf p hp))
    have ihw := ih ⟨w.files ++ [(w.nextId, pySort b)], w.nextId + 1, []⟩ rfl (by
      intro p hp
      rcases List.mem_append.mp hp with hp1 | hp2
      · exact Nat.lt_succ_of_lt (hwf p hp1)
      · rw [List.mem_singleton] at hp2
        subst hp2
        exact Nat.lt_succ_self _)
    have hwrite := World.writeAll_nofault
      (w := ⟨w.files ++ [(w.nextId, [])], w.nextId + 1, []⟩) rfl w.nextId (pySort b)
    simp only [writeRuns, World.create_nofault hf, hwrite, hupd, ihw]
    rw [List.length_cons, List.range'_succ]
    simp only [List.map_cons, List.zip_cons_cons, List.append_assoc, List.cons_append,
      List.nil_append]
    have harith : w.nextId + 1 + bs.length = w.nextId + (bs.length + 1) := by omega
    rw [harith]

theorem readRuns_of_lookup (cs : List (List Key)) (n nid : Nat) (F : List (Nat × List Key))
    (hlook : ∀ j, j < cs.length → F.lookup (n + j) = some (cs.getD j [])) :
    readRuns ⟨F, nid, []⟩ (List.range' n cs.length) = (⟨F, nid, []⟩, .ok cs) := by
  induction cs generalizing n with
  | nil => simp [readRuns]
  | cons c cs' ih =>
    rw [List.length_cons, List.range'_succ]
    have h0 : F.lookup n = some c := by
      have := hlook 0 (by simp)
      simpa using this
    have hread := World.readAll_nofault (w := ⟨F, nid, []⟩) rfl n c h0
    have ihh := ih (n + 1) (fun j hj => by
      have := hlook (j + 1) (by simpa using Nat.succ_lt_succ hj)
      have harith : n + (j + 1) = n + 1 + j := by omega
      rw [harith] at this
      simpa [List.getD] using this)
    simp only [readRuns, hread, ihh]

theorem unlinkAll_nofault (ids : List Nat) (F : List (Nat × List Key)) (nid : Nat) :
    unlinkAll ⟨F, nid, []⟩ ids =
      (⟨ids.foldl (fun G id => G.filter (fun p => p.1 ≠ id)) F, nid, []⟩, .ok ()) := by
  induction ids generalizing F with
  | nil => simp [unlinkAll]
  | cons id rest ih =>
    have hu := World.unlink_nofault (w := ⟨F, nid, []⟩) rfl id
    simp only [unlinkAll, hu, ih, List.foldl_cons]

theorem unlinkFold_spec (cs : List (List Key)) (n : Nat) (A B : List (Nat × List Key))
    (hA : ∀ p ∈ A, p.1 < n) (hB : ∀ p ∈ B, n + cs.length ≤ p.1) :
    (List.range' n cs.length).foldl (fun G id => G.filter (fun p => p.1 ≠ id))
      (A ++ (List.range' n cs.length).zip cs ++ B) = A ++ B := by
  induction cs generalizing n A with
  | nil => simp
  | cons c cs' ih =>
    rw [List.length_cons, List.range'_succ]
    simp only [List.zip_cons_cons, List.foldl_cons]
    have hfilter : (A ++ ((n, c) :: (List.range' (n + 1) cs'.length).zip cs') ++ B).filter
        (fun p => p.1 ≠ n) = A ++ (List.range' (n + 1) cs'.length).zip cs' ++ B := by
      rw [List.filter_append, List.filter_append]
      have hAkeep : A.filter (fun p : Nat × List Key => p.1 ≠ n) = A :=
        List.filter_eq_self.mpr (fun p hp => by
          simp only [decide_eq_true_eq]
          exact Nat.ne_of_lt (hA p hp))
      have hBkeep : B.filter (fun p : Nat × List Key => p.1 ≠ n) = B :=
        List.filter_eq_self.mpr (fun p hp => by
          have hge := hB p hp
          rw [List.length_cons] at hge
          simp only [decide_eq_true_eq]
          omega)
      have hMid : ((n, c) :: (List.range' (n + 1) cs'.length).zip cs').filter
          (fun p => p.1 ≠ n) = (List.range' (n + 1) cs'.length).zip cs' := by
        rw [List.filter_cons_of_neg (by simp)]
        refine List.filter_eq_self.mpr (fun p hp => ?_)
        have hfst : p.1 ∈ List.range' (n + 1) cs'.length := by
          have hmap : ((List.range' (n + 1) cs'.length).zip cs').map Prod.fst =
              List.range' (n + 1) cs'.length :=
            List.map_fst_zip _ _ (by simp)
          rw [← hmap]
          exact List.mem_map_of_mem Prod.fst hp
        have := (World.mem_range'_bounds hfst).1
        simp only [decide_eq_true_eq]
        omega
      rw [hAkeep, hBkeep, hMid]
    rw [hfilter]
    exact ih (n + 1) A (fun p hp => Nat.lt_succ_of_lt (hA p hp))
      (fun p hp => by
        have hge := hB p hp
        rw [List.length_cons] at hge
        omega)

theorem lookup_zip_range' (cs : List (List Key)) (n j : Nat) (B : List (Nat × List Key))
    (hj : j < cs.length) :
    ((List.range' n cs.length).zip cs ++ B).lookup (n + j) = some (cs.getD j []) := by
  induction cs generalizing n j with
  | nil => simp at hj
  | cons c cs' ihc =>
    rw [List.length_cons, List.range'_succ, List.zip_cons_cons]
    cases j with
    | zero => simp [List.lookup_cons, List.getD]
    | succ j' =>
      have hne : ((n + (j' + 1)) == n) = false := beq_eq_false_iff_ne.mpr (by omega)
      simp only [List.cons_append, List.lookup_cons, hne, cond_false]
      have harith : n + (j' + 1) = n + 1 + j' := by omega
      rw [harith]
      have hj' : j' < cs'.length := by
        rw [List.length_cons] at hj
        omega
      simpa [List.getD] using ihc (n + 1) j' hj'

/-- Fault-free behaviour of `_external_sort`: it returns the id of a fresh
result file whose content is the full merged sequence, the run files all
deleted; that merged output file is left on disk for the caller. -/
theorem external_sort_spec (input : List Key) (w : World) (hf : w.faults = [])
    (hwf : World.WF w) :
    external_sort w input =
      (⟨w.files ++ [(w.nextId + (splitBlocks input).length, externalMergeSeq input)],
        w.nextId + (splitBlocks input).length + 1, []⟩,
       .ok (w.nextId + (splitBlocks input).length)) := by
  set cs := (splitBlocks input).map pySort with hcs
  set n := w.nextId with hn
  set k := (splitBlocks input).length with hk
  have hkcs : k = cs.length := by rw [hk, hcs, List.length_map]
  have h1 := writeRuns_spec (splitBlocks input) w hf hwf
  have h2 : World.create ⟨w.files ++ (List.range' n k).zip cs, n + k, []⟩ =
      (⟨(w.files ++ (List.range' n k).zip cs) ++ [(n + k, [])], n + k + 1, []⟩,
       .ok (n + k)) :=
    World.create_nofault rfl
  have hmemzip : ∀ p ∈ (List.range' n k).zip cs, n ≤ p.1 ∧ p.1 < n + k := by
    intro p hp
    have hfst : p.1 ∈ List.range' n k := by
      have hmap : ((List.range' n k).zip cs).map Prod.fst = List.range' n k :=
        List.map_fst_zip _ _ (by rw [List.length_range', hkcs])
      rw [← hmap]
      exact List.mem_map_of_mem Prod.fst hp
    have := World.mem_range'_bounds hfst
    omega
  have hlookup : ∀ j, j < cs.length →
      ((w.files ++ (List.range' n k).zip cs) ++ [(n + k, [])]).lookup (n + j) =
        some (cs.getD j []) := by
    intro j hj
    rw [List.append_assoc]
    rw [World.lookup_append_right (fun p hp => Nat.ne_of_lt (by
      have := hwf p hp
      omega))]
    have := lookup_zip_range' cs n j [(n + k, [])] hj
    rwa [← hkcs] at this
  have hread : readRuns ⟨(w.files ++ (List.range' n k).zip cs) ++ [(n + k, [])],
      n + k + 1, []⟩ (List.range' n k) =
      (⟨(w.files ++ (List.range' n k).zip cs) ++ [(n + k, [])], n + k + 1, []⟩,
       .ok cs) := by
    have := readRuns_of_lookup cs n (n + k + 1) _ hlookup
    rwa [← hkcs] at this
  have hupd := World.map_update_append
    (w.files ++ (List.range' n k).zip cs) (n + k)
    (mergeLoop (initHeap cs) (initHandles cs))
    (by
      intro p hp
      rcases List.mem_append.mp hp with hp1 | hp2
      · exact Nat.ne_of_lt (by have := hwf p hp1; omega)
      · exact Nat.ne_of_lt (hmemzip p hp2).2)
  have hwrite : World.writeAll ⟨(w.files ++ (List.range' n k).zip cs) ++ [(n + k, [])],
      n + k + 1, []⟩ (n + k) (mergeLoop (initHeap cs) (initHandles cs)) =
      (⟨(w.files ++ (List.range' n k).zip cs) ++ [(n + k, mergeLoop (initHeap cs)
        (initHandles cs))], n + k + 1, []⟩, .ok ()) := by
    rw [World.writeAll_nofault rfl]
    rw [show ((⟨(w.files ++ (List.range' n k).zip cs) ++ [(n + k, [])], n + k + 1,
      []⟩ : World)).files = (w.files ++ (List.range' n k).zip cs) ++ [(n + k, [])] from rfl]
    rw [hupd]
  have hunlink : unlinkAll ⟨(w.files ++ (List.range' n k).zip cs) ++
      [(n + k, mergeLoop (initHeap cs) (initHandles cs))], n + k + 1, []⟩
      (List.range' n k) =
      (⟨w.files ++ [(n + k, mergeLoop (initHeap cs) (initHandles cs))],
        n + k + 1, []⟩, .ok ()) := by
    rw [unlinkAll_nofault]
    have hfold := unlinkFold_spec cs n w.files
      [(n + k, mergeLoop (initHeap cs) (initHandles cs))]
      (fun p hp => hwf p hp)
      (fun p hp => by
        rw [List.mem_singleton] at hp
        subst hp
        rw [← hkcs])
    rw [← hkcs] at hfold
    rw [List.append_assoc] at hfold
    rw [List.append_assoc, hfold]
  simp only [external_sort, h1, h2, hread, hwrite, hunlink]
  rfl

/-- Fault-free behaviour of `_count_unique_external`: the merged result file
is scanned and then deleted, the file store is restored to its initial
content, and the returned count is the number of distinct records. -/
theorem count_unique_external_spec (input : List Key) (w : World) (hf : w.faults = [])
    (hwf : World.WF w) :
    count_unique_external w input =
      (⟨w.files, w.nextId + (splitBlocks input).length + 1, []⟩,
       .ok (input.toFinset.card)) := by
  set rid := w.nextId + (splitBlocks input).length with hrid
  have h1 := external_sort_spec input w hf hwf
  have hlook : (w.files ++ [(rid, externalMergeSeq input)]).lookup rid =
      some (externalMergeSeq input) := by
    rw [World.lookup_append_right (fun p hp => Nat.ne_of_lt (by
      have := hwf p hp
      omega))]
    simp [List.lookup_cons]
  have hread := World.readAll_nofault
    (w := ⟨w.files ++ [(rid, externalMergeSeq input)], rid + 1, []⟩) rfl rid
    (externalMergeSeq input) hlook
  have hunl : World.unlink ⟨w.files ++ [(rid, externalMergeSeq input)], rid + 1, []⟩ rid =
      (⟨w.files, rid + 1, []⟩, .ok ()) := by
    rw [World.unlink_nofault rfl]
    rw [show ((⟨w.files ++ [(rid, externalMergeSeq input)], rid + 1, []⟩ : World)).files =
      w.files ++ [(rid, externalMergeSeq input)] from rfl]
    rw [List.filter_append]
    rw [List.filter_eq_self.mpr (fun p hp => by
      simp only [decide_eq_true_eq]
      exact Nat.ne_of_lt (by
        have := hwf p hp
        omega))]
    rw [List.filter_cons_of_neg (by simp)]
    simp
  simp only [count_unique_external, h1, hread, hunl, scanCount_externalMergeSeq]

/-- The partition counting task always returns the exact number of distinct
records, whichever strategy the file size selects. -/
theorem count_unique_spec (records : List Key) :
    PartitionProcessor.count_unique records = .ok (records.toFinset.card) := by
  unfold count_unique
  split
  · rw [count_unique_in_memory_eq_card]
  · rw [count_unique_external_spec records World.init rfl (fun p hp => by
      simp [World.init] at hp)]

end PartitionProcessor

namespace FastHasher

theorem get_partition_lt (k : Key) {N : Nat} (h : 1 ≤ N) : get_partition k N < N :=
  Nat.mod_lt _ h

end FastHasher

theorem list_range_map_sum (f : Nat → Nat) (n : Nat) :
    ((List.range n).map f).sum = ∑ p ∈ Finset.range n, f p := by
  induction n with
  | zero => simp
  | succ m ih => rw [List.range_succ, Finset.sum_range_succ, List.map_append, List.sum_append, ih]; simp

/-- The sum of the per-partition distinct counts over all hash fibres equals
the global distinct count: partitioning by a total function of the key never
splits one key across two partitions. -/
theorem sum_fiber_card (keys : List Key) (N : Nat) (hN : 1 ≤ N) :
    ∑ p ∈ Finset.range N,
      (keys.filter (fun k => FastHasher.get_partition k N = p)).toFinset.card =
      keys.toFinset.card := by
  have h := Finset.card_eq_sum_card_fiberwise
    (f := fun k => FastHasher.get_partition k N) (s := keys.toFinset)
    (t := Finset.range N)
    (fun x _ => Finset.mem_range.mpr (FastHasher.get_partition_lt x hN))
  rw [h]
  refine Finset.sum_congr rfl (fun p _ => ?_)
  rw [List.toFinset_filter]
  congr 1
  refine Finset.filter_congr (fun x _ => ?_)
  simp

theorem process_partitions_map_ok (g : List Key → Nat) (ls : List (List Key)) :
    IPv6UniqueCounter.process_partitions (ls.map (fun l => Except.ok (g l))) =
      (ls.map g).sum := by
  unfold IPv6UniqueCounter.process_partitions
  have hgen : ∀ (rs : List (List Key)) (acc : Nat),
      (rs.map (fun l => (Except.ok (g l) : Except String Nat))).foldl
        (fun total r => match r with | .ok n => total + n | .error _ => total) acc =
      acc + (rs.map g).sum := by
    intro rs
    induction rs with
    | nil => intro acc; simp
    | cons hd tl ih =>
      intro acc
      simp only [List.map_cons, List.foldl_cons, ih, List.sum_cons]
      omega
  simpa using hgen ls 0

theorem partitionsOfKeys_length (keys : List Key) (N : Nat) :
    (partitionsOfKeys keys N).length = N := by
  simp [partitionsOfKeys]

theorem partitionsOfKeys_getD (keys : List Key) (N p : Nat) (hp : p < N) :
    (partitionsOfKeys keys N).getD p [] =
      keys.filter (fun k => FastHasher.get_partition k N = p) := by
  rw [List.getD_eq_getElem _ _ (by simpa [partitionsOfKeys_length] using hp)]
  simp [partitionsOfKeys]

theorem filter_snoc_fiber (keys : List Key) (k : Key) (N p : Nat) :
    (keys ++ [k]).filter (fun x => FastHasher.get_partition x N = p) =
      keys.filter (fun x => FastHasher.get_partition x N = p) ++
      (if FastHasher.get_partition k N = p then [k] else []) := by
  rw [List.filter_append]
  congr 1
  by_cases hcase : FastHasher.get_partition k N = p
  · simp [hcase]
  · simp [hcase]

theorem partitionsOfKeys_snoc (keys : List Key) (k : Key) (N : Nat) (hN : 1 ≤ N) :
    (partitionsOfKeys keys N).set (FastHasher.get_partition k N)
      ((partitionsOfKeys keys N).getD (FastHasher.get_partition k N) [] ++ [k]) =
    partitionsOfKeys (keys ++ [k]) N := by
  have hlt : FastHasher.get_partition k N < N := FastHasher.get_partition_lt k hN
  rw [partitionsOfKeys_getD keys N _ hlt]
  apply List.ext_getElem
  · simp [List.length_set, partitionsOfKeys_length]
  · intro p hp1 hp2
    have hpN : p < N := by
      rw [partitionsOfKeys_length] at hp2
      exact hp2
    rw [List.getElem_set]
    have hpL : p < (partitionsOfKeys keys N).length := by
      rw [partitionsOfKeys_length]; exact hpN
    have hL : (partitionsOfKeys keys N)[p] =
        keys.filter (fun x => FastHasher.get_partition x N = p) := by
      simp [partitionsOfKeys]
    have hR : (partitionsOfKeys (keys ++ [k]) N)[p] =
        (keys ++ [k]).filter (fun x => FastHasher.get_partition x N = p) := by
      simp [partitionsOfKeys]
    rw [hR, filter_snoc_fiber]
    by_cases hcase : FastHasher.get_partition k N = p
    · rw [if_pos hcase, if_pos hcase, hcase]
    · rw [if_neg hcase, if_neg hcase, hL]
      simp

/-- One key appended to its hash partition (the effect of a successfully
parsed line in `_process_line`). -/
def appendKey (N : Nat) (ps : List (List Key)) (k : Key) : List (List Key) :=
  ps.set (FastHasher.get_partition k N)
    (ps.getD (FastHasher.get_partition k N) [] ++ [k])

theorem foldl_process_line (N : Nat) (lines : List (List Char))
    (parts : List (List Key)) :
    lines.foldl (fun ps line => IPv6UniqueCounter.process_line line ps N) parts =
      (lines.filterMap (fun line => (IPv6Parser.to_canonical_bytes line).toOption)).foldl
        (appendKey N) parts := by
  induction lines generalizing parts with
  | nil => rfl
  | cons line rest ih =>
    simp only [List.foldl_cons, List.filterMap_cons]
    cases hparse : IPv6Parser.to_canonical_bytes line with
    | error e =>
      have hstep : IPv6UniqueCounter.process_line line parts N = parts := by
        unfold IPv6UniqueCounter.process_line
        rw [hparse]
      simp only [Except.toOption, hstep, ih]
    | ok k =>
      have hstep : IPv6UniqueCounter.process_line line parts N = appendKey N parts k := by
        unfold IPv6UniqueCounter.process_line
        rw [hparse]
        rfl
      simp only [Except.toOption, hstep, ih, List.foldl_cons]

theorem foldl_appendKey_partitions (N : Nat) (hN : 1 ≤ N) (ks acc : List Key) :
    ks.foldl (appendKey N) (partitionsOfKeys acc N) = partitionsOfKeys (acc ++ ks) N := by
  induction ks generalizing acc with
  | nil => simp
  | cons k ks' ih =>
    rw [List.foldl_cons]
    have hstep : appendKey N (partitionsOfKeys acc N) k = partitionsOfKeys (acc ++ [k]) N :=
      partitionsOfKeys_snoc acc k N hN
    rw [hstep, ih]
    rw [List.append_assoc]
    rfl

theorem partitionsOfKeys_nil (N : Nat) :
    List.replicate N ([] : List Key) = partitionsOfKeys [] N := by
  unfold partitionsOfKeys
  symm
  rw [List.eq_replicate_iff]
  refine ⟨by simp, fun b hb => ?_⟩
  obtain ⟨p, _, hp⟩ := List.mem_map.mp hb
  rw [← hp]
  simp

/-- `_distribute_addresses` produces exactly the hash fibres of the parsed
keys, in input order. -/
theorem distribute_eq_partitionsOfKeys (input : List Char) (N : Nat) (hN : 1 ≤ N) :
    IPv6UniqueCounter.distribute_addresses input N =
      partitionsOfKeys (parsedKeys input) N := by
  unfold IPv6UniqueCounter.distribute_addresses parsedKeys
  rw [foldl_process_line, partitionsOfKeys_nil N, foldl_appendKey_partitions N hN]
  rw [List.nil_append]

/-- Whenever the input file is non-empty (so that `mmap` succeeds), a run
returns exactly the number of distinct canonical keys among the successfully
parsed lines. -/
theorem count_unique_run (c : IPv6UniqueCounter) (input : List Char) (hne : input ≠ []) :
    c.count_unique input = .ok ((parsedKeys input).toFinset.card) := by
  unfold IPv6UniqueCounter.count_unique
  rw [if_neg hne]
  have hN : 1 ≤ IPv6UniqueCounter.calculate_num_partitions input.length :=
    le_min (le_max_left _ _) (by norm_num)
  rw [distribute_eq_partitionsOfKeys _ _ hN]
  rw [List.map_congr_left (fun l _ => PartitionProcessor.count_unique_spec l)]
  rw [process_partitions_map_ok (fun l => l.toFinset.card)]
  unfold partitionsOfKeys
  rw [List.map_map, list_range_map_sum]
  simp only [Function.comp_apply]
  rw [sum_fiber_card _ _ hN]

namespace IPv6Render

/-!
Formalisation of "textual forms denoting the same address" for the
canonicalization-equivalence claim.  These definitions follow the
specification's description of valid address text (eight groups of 1-4 hex
digits, any letter case, optionally compressed by one `::` standing for at
least one all-zero group); they are deliberately spec-side, to be compared
with the parser embedded from the source.
-/

/-- The decimal digit characters. -/
def decDigits : List Char := ['0', '1', '2', '3', '4', '5', '6', '7', '8', '9']

/-- The lowercase hexadecimal letters. -/
def hexLower : List Char := ['a', 'b', 'c', 'd', 'e', 'f']

/-- The uppercase hexadecimal letters. -/
def hexUpper : List Char := ['A', 'B', 'C', 'D', 'E', 'F']

/-- Every hexadecimal digit character, in both cases. -/
def hexDigits : List Char := decDigits ++ hexLower ++ hexUpper

/-- A character is a hexadecimal digit. -/
def isHexDigitChar (c : Char) : Bool := hexDigits.contains c

/-- Horner evaluation of a hex-digit string starting from `acc`. -/
def hexFold (acc : Nat) (g : List Char) : Nat :=
  g.foldl (fun a c => 16 * a + (IPv6Parser.hexVal c).getD 0) acc

/-- The 16-bit value denoted by a group rendering. -/
def groupVal (g : List Char) : Nat := hexFold 0 g

/-- A valid textual group: one to four hex digits, any case, with or without
leading zeros. -/
def ValidGroup (g : List Char) : Prop :=
  g ≠ [] ∧ g.length ≤ 4 ∧ ∀ c ∈ g, isHexDigitChar c

instance : DecidablePred ValidGroup := fun g => by
  unfold ValidGroup; infer_instance

/-- Groups joined by single colons. -/
def joinColon : List (List Char) → List Char
  | [] => []
  | [g] => g
  | g :: gs => g ++ ':' :: joinColon gs

/-- Big-endian packing of a list of 16-bit group values, two bytes each:
the reference value of a canonical key. -/
def packBytes (vs : List Nat) : Key :=
  vs.foldr (fun v acc => v / 256 :: v % 256 :: acc) []

/-- `Denotes s vs`: the string `s` is a well-formed textual form of the IPv6
address whose eight group values are `vs` — either the fully expanded form,
or a form compressed by one `::` standing for `nz ≥ 1` zero groups. -/
def Denotes (s : List Char) (vs : List Nat) : Prop :=
  (∃ gs : List (List Char), gs.length = 8 ∧ (∀ g ∈ gs, ValidGroup g) ∧
    vs = gs.map groupVal ∧ s = joinColon gs) ∨
  (∃ (gsL gsR : List (List Char)) (nz : Nat), 1 ≤ nz ∧
    gsL.length + nz + gsR.length = 8 ∧
    (∀ g ∈ gsL ++ gsR, ValidGroup g) ∧
    vs = gsL.map groupVal ++ List.replicate nz 0 ++ gsR.map groupVal ∧
    s = joinColon gsL ++ ':' :: ':' :: joinColon gsR)

/-- Facts about a single hexadecimal digit character, established by
checking each of the 22 digits. -/
theorem hexChar_props (c : Char) (hc : isHexDigitChar c = true) :
    IPv6Parser.hexVal (Char.toLower c) = IPv6Parser.hexVal c ∧
    (∃ v, IPv6Parser.hexVal c = some v ∧ v ≤ 15) ∧
    Char.toLower c ≠ ':' ∧ Char.toLower c ≠ '_' ∧ Char.toLower c ≠ '+' ∧
    Char.toLower c ≠ '-' ∧ c ≠ ':' ∧
    IPv6Parser.isPySpace c = false ∧ IPv6Parser.isPySpace (Char.toLower c) = false ∧
    (Char.toLower c = '0' ↔ c = '0') := by
  have hmem : c ∈ hexDigits := by
    rw [isHexDigitChar, List.contains_eq_any_beq] at hc
    obtain ⟨x, hx, hbeq⟩ := List.any_eq_true.mp hc
    rwa [show c = x from eq_of_beq hbeq]
  fin_cases hmem <;> exact (by decide)

theorem pyLower_append (a b : List Char) :
    IPv6Parser.pyLower (a ++ b) = IPv6Parser.pyLower a ++ IPv6Parser.pyLower b :=
  List.map_append _ a b

theorem pyLower_joinColon (gs : List (List Char)) :
    IPv6Parser.pyLower (joinColon gs) = joinColon (gs.map IPv6Parser.pyLower) := by
  induction gs with
  | nil => rfl
  | cons g gs ih =>
    cases gs with
    | nil => rfl
    | cons g' gs' =>
      show IPv6Parser.pyLower (g ++ ':' :: joinColon (g' :: gs')) = _
      rw [pyLower_append]
      show _ = IPv6Parser.pyLower g ++ ':' :: joinColon ((g' :: gs').map IPv6Parser.pyLower)
      rw [← ih]
      rfl

theorem dropWhile_eq_self_of_none {p : Char → Bool} {s : List Char}
    (h : ∀ c ∈ s, p c = false) : s.dropWhile p = s := by
  cases s with
  | nil => rfl
  | cons c cs => rw [List.dropWhile_cons_of_neg (by simp [h c (List.mem_cons_self c cs)])]

theorem pyStrip_eq_self {s : List Char} (h : ∀ c ∈ s, IPv6Parser.isPySpace c = false) :
    IPv6Parser.pyStrip s = s := by
  unfold IPv6Parser.pyStrip
  rw [dropWhile_eq_self_of_none h]
  rw [dropWhile_eq_self_of_none (fun c hc => h c (List.mem_reverse.mp hc))]
  exact List.reverse_reverse s

theorem mem_joinColon {c : Char} {gs : List (List Char)} (h : c ∈ joinColon gs) :
    c = ':' ∨ ∃ g ∈ gs, c ∈ g := by
  induction gs with
  | nil => simp [joinColon] at h
  | cons g gs ih =>
    cases gs with
    | nil => exact Or.inr ⟨g, List.mem_cons_self _ _, h⟩
    | cons g' gs' =>
      rw [show joinColon (g :: g' :: gs') = g ++ ':' :: joinColon (g' :: gs') from rfl] at h
      rcases List.mem_append.mp h with h1 | h2
      · exact Or.inr ⟨g, List.mem_cons_self _ _, h1⟩
      · rcases List.mem_cons.mp h2 with h3 | h4
        · exact Or.inl h3
        · rcases ih h4 with h5 | ⟨g'', hg'', hc⟩
          · exact Or.inl h5
          · exact Or.inr ⟨g'', List.mem_cons_of_mem _ hg'', hc⟩

theorem joinColon_ne_nil {gs : List (List Char)} (hne : gs ≠ [])
    (hg : ∀ g ∈ gs, g ≠ []) : joinColon gs ≠ [] := by
  cases gs with
  | nil => exact absurd rfl hne
  | cons g gs' =>
    cases gs' with
    | nil => exact hg g (List.mem_cons_self _ _)
    | cons g' gs'' =>
      show g ++ ':' :: joinColon (g' :: gs'') ≠ []
      simp

theorem hasDC_of_colon_free {s : List Char} (h : ∀ c ∈ s, c ≠ ':') :
    IPv6Parser.hasDoubleColon s = false := by
  induction s with
  | nil => rfl
  | cons a s ih =>
    cases s with
    | nil => rfl
    | cons b rest =>
      rw [IPv6Parser.hasDoubleColon]
      have ha : a ≠ ':' := h a (List.mem_cons_self _ _)
      rw [ih (fun c hc => h c (List.mem_cons_of_mem _ hc))]
      simp [ha]

theorem hasDC_append_false {g t : List Char} (hg : ∀ c ∈ g, c ≠ ':')
    (ht : IPv6Parser.hasDoubleColon t = false) :
    IPv6Parser.hasDoubleColon (g ++ t) = false := by
  induction g with
  | nil => simpa using ht
  | cons c g' ih =>
    have hc : c ≠ ':' := hg c (List.mem_cons_self _ _)
    have ih' := ih (fun x hx => hg x (List.mem_cons_of_mem _ hx))
    cases hgt : g' ++ t with
    | nil => simp [List.cons_append, hgt, IPv6Parser.hasDoubleColon]
    | cons d rest =>
      rw [List.cons_append, hgt, IPv6Parser.hasDoubleColon]
      rw [← hgt, ih']
      simp [hc]

theorem hasDC_double {a b : List Char} :
    IPv6Parser.hasDoubleColon (a ++ ':' :: ':' :: b) = true := by
  induction a with
  | nil => simp [IPv6Parser.hasDoubleColon]
  | cons c a' ih =>
    cases ha : a' ++ ':' :: ':' :: b with
    | nil => exact absurd ha (by simp)
    | cons d rest =>
      rw [List.cons_append, ha, IPv6Parser.hasDoubleColon, ← ha, ih]
      simp

theorem splitOnChar_ne_nil (c : Char) (s : List Char) : IPv6Parser.splitOnChar c s ≠ [] := by
  cases s with
  | nil => simp [IPv6Parser.splitOnChar]
  | cons x xs =>
    rw [IPv6Parser.splitOnChar]
    by_cases hx : x = c
    · simp [hx]
    · rw [if_neg hx]
      cases IPv6Parser.splitOnChar c xs <;> simp

theorem splitOnChar_colon_free {g : List Char} (hg : ∀ x ∈ g, x ≠ ':') :
    IPv6Parser.splitOnChar ':' g = [g] := by
  induction g with
  | nil => rfl
  | cons x xs ih =>
    rw [IPv6Parser.splitOnChar, if_neg (hg x (List.mem_cons_self _ _))]
    rw [ih (fun y hy => hg y (List.mem_cons_of_mem _ hy))]

theorem splitOnChar_append {g t : List Char} (hg : ∀ x ∈ g, x ≠ ':') :
    IPv6Parser.splitOnChar ':' (g ++ ':' :: t) =
      g :: IPv6Parser.splitOnChar ':' t := by
  induction g with
  | nil => simp [IPv6Parser.splitOnChar]
  | cons x xs ih =>
    rw [List.cons_append, IPv6Parser.splitOnChar, if_neg (hg x (List.mem_cons_self _ _))]
    rw [ih (fun y hy => hg y (List.mem_cons_of_mem _ hy))]

theorem splitOnChar_joinColon {gs : List (List Char)} (hne : gs ≠ [])
    (hg : ∀ g ∈ gs, ∀ x ∈ g, x ≠ ':') :
    IPv6Parser.splitOnChar ':' (joinColon gs) = gs := by
  induction gs with
  | nil => exact absurd rfl hne
  | cons g gs' ih =>
    cases gs' with
    | nil => exact splitOnChar_colon_free (hg g (List.mem_cons_self _ _))
    | cons g' gs'' =>
      rw [show joinColon (g :: g' :: gs'') = g ++ ':' :: joinColon (g' :: gs'') from rfl]
      rw [splitOnChar_append (hg g (List.mem_cons_self _ _))]
      rw [ih (by simp) (fun h hh => hg h (List.mem_cons_of_mem _ hh))]

theorem splitDC_cons_ne {x : Char} (hx : x ≠ ':') (xs : List Char) :
    IPv6Parser.splitOnDoubleColon (x :: xs) =
      match IPv6Parser.splitOnDoubleColon xs with
      | [] => [[x]]
      | p :: ps => (x :: p) :: ps := by
  rw [IPv6Parser.splitOnDoubleColon.eq_def]
  simp [hx]

theorem splitDC_cons_colon {xs : List Char} (hxs : xs.head? ≠ some ':') :
    IPv6Parser.splitOnDoubleColon (':' :: xs) =
      match IPv6Parser.splitOnDoubleColon xs with
      | [] => [[':']]
      | p :: ps => (':' :: p) :: ps := by
  cases xs with
  | nil => rfl
  | cons y ys =>
    have hy : y ≠ ':' := by simpa using hxs
    rw [IPv6Parser.splitOnDoubleColon.eq_def]
    simp [hy]

theorem splitDC_start : ∀ b : List Char,
    IPv6Parser.splitOnDoubleColon (':' :: ':' :: b) =
      [] :: IPv6Parser.splitOnDoubleColon b := fun _ => rfl

theorem splitDC_no_dc {s : List Char} (h : IPv6Parser.hasDoubleColon s = false) :
    IPv6Parser.splitOnDoubleColon s = [s] := by
  induction s with
  | nil => rfl
  | cons a s' ih =>
    have hrest : IPv6Parser.hasDoubleColon s' = false := by
      cases s' with
      | nil => rfl
      | cons b rest =>
        rw [IPv6Parser.hasDoubleColon] at h
        exact (Bool.or_eq_false_iff.mp h).2
    have hsplit := ih hrest
    by_cases ha : a = ':'
    · have hhead : s'.head? ≠ some ':' := by
        cases s' with
        | nil => simp
        | cons b rest =>
          rw [IPv6Parser.hasDoubleColon] at h
          have := (Bool.or_eq_false_iff.mp h).1
          simp only [Bool.and_eq_false_iff, decide_eq_false_iff_not] at this
          rcases this with h1 | h2
          · exact absurd ha h1
          · simpa using h2
      subst ha
      rw [splitDC_cons_colon hhead, hsplit]
    · rw [splitDC_cons_ne ha, hsplit]

theorem splitDC_double {a b : List Char} (hdc : IPv6Parser.hasDoubleColon a = false)
    (hlast : a.getLast? ≠ some ':') (hb : IPv6Parser.hasDoubleColon b = false) :
    IPv6Parser.splitOnDoubleColon (a ++ ':' :: ':' :: b) = [a, b] := by
  induction a with
  | nil =>
    rw [List.nil_append, splitDC_start, splitDC_no_dc hb]
  | cons c a' ih =>
    have hca' : IPv6Parser.hasDoubleColon a' = false := by
      cases a' with
      | nil => rfl
      | cons d rest =>
        rw [IPv6Parser.hasDoubleColon] at hdc
        exact (Bool.or_eq_false_iff.mp hdc).2
    have hlast' : a'.getLast? ≠ some ':' := by
      cases a' with
      | nil => simp
      | cons d rest =>
        rwa [List.getLast?_cons_cons] at hlast
    have hih := ih hca' hlast'
    rw [List.cons_append]
    by_cases hc : c = ':'
    · have hhead : (a' ++ ':' :: ':' :: b).head? ≠ some ':' := by
        cases a' with
        | nil =>
          subst hc
          exact absurd (by simp) hlast
        | cons d rest =>
          have hd : d ≠ ':' := by
            intro hd
            rw [IPv6Parser.hasDoubleColon] at hdc
            have := (Bool.or_eq_false_iff.mp hdc).1
            simp [hc, hd] at this
          simpa using hd
      subst hc
      rw [splitDC_cons_colon hhead, hih]
    · rw [splitDC_cons_ne hc, hih]

theorem hexVal_ne_underscore {c : Char} {v : Nat} (h : IPv6Parser.hexVal c = some v) :
    c ≠ '_' := by
  intro hc
  subst hc
  rw [show IPv6Parser.hexVal '_' = none from by decide] at h
  exact Option.noConfusion h

theorem hexFold_cons (acc : Nat) (c : Char) (t : List Char) :
    hexFold acc (c :: t) = hexFold (16 * acc + (IPv6Parser.hexVal c).getD 0) t := rfl

theorem phdGo_cons (acc : Nat) (aU lU seen : Bool) (c : Char) (cs : List Char) :
    IPv6Parser.phdGo acc aU lU seen (c :: cs) =
      if c = '_' then (if aU then IPv6Parser.phdGo acc false true seen cs else none)
      else
        match IPv6Parser.hexVal c with
        | some d => IPv6Parser.phdGo (16 * acc + d) true false true cs
        | none => none := rfl

theorem phdGo_cons_hex {c : Char} {v : Nat} (hv : IPv6Parser.hexVal c = some v)
    (acc : Nat) (aU lU seen : Bool) (cs : List Char) :
    IPv6Parser.phdGo acc aU lU seen (c :: cs) =
      IPv6Parser.phdGo (16 * acc + v) true false true cs := by
  rw [phdGo_cons, if_neg (hexVal_ne_underscore hv), hv]

theorem phdGo_hex (ds : List Char) (hne : ds ≠ [])
    (hhex : ∀ c ∈ ds, (IPv6Parser.hexVal c).isSome) (acc : Nat) (aU lU seen : Bool) :
    IPv6Parser.phdGo acc aU lU seen ds = some (hexFold acc ds) := by
  induction ds generalizing acc aU lU seen with
  | nil => exact absurd rfl hne
  | cons c cs ih =>
    obtain ⟨v, hv⟩ := Option.isSome_iff_exists.mp (hhex c (List.mem_cons_self _ _))
    rw [phdGo_cons_hex hv, hexFold_cons, hv]
    cases cs with
    | nil => rfl
    | cons d ds' =>
      exact ih (by simp) (fun x hx => hhex x (List.mem_cons_of_mem _ hx)) _ _ _ _

theorem hexFold_lt (ds : List Char)
    (hhex : ∀ c ∈ ds, ∃ v, IPv6Parser.hexVal c = some v ∧ v ≤ 15) (acc : Nat) :
    hexFold acc ds < (acc + 1) * 16 ^ ds.length := by
  induction ds generalizing acc with
  | nil => simp [hexFold]
  | cons c t ih =>
    obtain ⟨v, hv, hle⟩ := hhex c (List.mem_cons_self _ _)
    rw [hexFold_cons, hv]
    have h1 := ih (fun x hx => hhex x (List.mem_cons_of_mem _ hx)) (16 * acc + v)
    have h2 : (16 * acc + v + 1) * 16 ^ t.length ≤ (acc + 1) * 16 ^ (t.length + 1) := by
      have : 16 * acc + v + 1 ≤ 16 * (acc + 1) := by omega
      calc (16 * acc + v + 1) * 16 ^ t.length
          ≤ (16 * (acc + 1)) * 16 ^ t.length := Nat.mul_le_mul_right _ this
        _ = (acc + 1) * 16 ^ (t.length + 1) := by ring
    simp only [Option.getD_some]
    calc hexFold (16 * acc + v) t < (16 * acc + v + 1) * 16 ^ t.length := h1
      _ ≤ (acc + 1) * 16 ^ (t.length + 1) := h2
      _ = (acc + 1) * 16 ^ (c :: t).length := by rw [List.length_cons]

theorem hexFold_zero_dropZeros (g : List Char) :
    hexFold 0 (g.dropWhile (· = '0')) = hexFold 0 g := by
  induction g with
  | nil => rfl
  | cons c t ih =>
    by_cases hc : c = '0'
    · subst hc
      rw [List.dropWhile_cons_of_pos (by simp), ih, hexFold_cons]
      rw [show IPv6Parser.hexVal '0' = some 0 from by decide]
      rfl
    · rw [List.dropWhile_cons_of_neg (by simp [hc])]

theorem groupVal_lt (g : List Char) (hv : ValidGroup g) : groupVal g < 65536 := by
  obtain ⟨hne, hlen, hhex⟩ := hv
  have h1 := hexFold_lt g (fun c hc => (hexChar_props c (hhex c hc)).2.1) 0
  have h2 : (16 : Nat) ^ g.length ≤ 16 ^ 4 :=
    Nat.pow_le_pow_right (by norm_num) hlen
  calc groupVal g < (0 + 1) * 16 ^ g.length := h1
    _ = 16 ^ g.length := by ring
    _ ≤ 16 ^ 4 := h2
    _ ≤ 65536 := by norm_num

theorem hexFold_lower (g : List Char) (hhex : ∀ c ∈ g, isHexDigitChar c = true)
    (acc : Nat) : hexFold acc (IPv6Parser.pyLower g) = hexFold acc g := by
  induction g generalizing acc with
  | nil => rfl
  | cons c t ih =>
    show hexFold acc (Char.toLower c :: IPv6Parser.pyLower t) = _
    rw [hexFold_cons, hexFold_cons,
      (hexChar_props c (hhex c (List.mem_cons_self _ _))).1,
      ih (fun x hx => hhex x (List.mem_cons_of_mem _ hx))]

theorem dropWhile_head_false {p : Char → Bool} {l t : List Char} {c : Char}
    (h : l.dropWhile p = c :: t) : p c = false := by
  induction l with
  | nil => simp at h
  | cons x xs ih =>
    by_cases hx : p x
    · rw [List.dropWhile_cons_of_pos hx] at h
      exact ih h
    · rw [List.dropWhile_cons_of_neg hx] at h
      injection h with h1 _
      subst h1
      simpa using hx

theorem pyIntHex_no_sign {s : List Char} (hstrip : IPv6Parser.pyStrip s = s)
    (hd : s.head? ≠ some '+') (hd2 : s.head? ≠ some '-') :
    IPv6Parser.pyIntHex s = (IPv6Parser.pyIntHexMag s).map (fun n => (n : Int)) := by
  unfold IPv6Parser.pyIntHex
  rw [hstrip]
  cases s with
  | nil => rfl
  | cons c s' =>
    have hc1 : c ≠ '+' := by simpa using hd
    have hc2 : c ≠ '-' := by simpa using hd2
    simp [hc1, hc2]

theorem pyIntHexMag_no_marker {s : List Char} (h : s.head? ≠ some '0') :
    IPv6Parser.pyIntHexMag s = IPv6Parser.phdGo 0 false false false s := by
  cases s with
  | nil => rfl
  | cons c s' =>
    have hc : c ≠ '0' := by simpa using h
    cases s' with
    | nil =>
      rw [IPv6Parser.pyIntHexMag.eq_def]
      simp [hc]
    | cons d s'' =>
      rw [IPv6Parser.pyIntHexMag.eq_def]
      simp [hc]

theorem groupToVal_valid (g : List Char) (hv : ValidGroup g) :
    IPv6Parser.groupToVal (IPv6Parser.pyLower g) = .ok ((groupVal g : Nat) : Int) := by
  obtain ⟨hne, hlen, hhex⟩ := hv
  have hlowhex : ∀ c ∈ IPv6Parser.pyLower g, (IPv6Parser.hexVal c).isSome := by
    intro c hc
    obtain ⟨x, hx, hcx⟩ := List.mem_map.mp hc
    obtain ⟨v, hvx, _⟩ := (hexChar_props x (hhex x hx)).2.1
    rw [← hcx, (hexChar_props x (hhex x hx)).1, hvx]
    rfl
  have hlowval : hexFold 0 (IPv6Parser.pyLower g) = groupVal g := hexFold_lower g hhex 0
  unfold IPv6Parser.groupToVal
  by_cases h0 : IPv6Parser.pyLower g = [] ∨ IPv6Parser.pyLower g = ['0']
  · rw [if_pos h0]
    rcases h0 with h0 | h0
    · exact absurd (List.map_eq_nil_iff.mp h0) hne
    · have : hexFold 0 (IPv6Parser.pyLower g) = 0 := by
        rw [h0]
        decide
      rw [hlowval] at this
      rw [show groupVal g = 0 from this]
      rfl
  · rw [if_neg h0]
    cases ht : IPv6Parser.lstripZeros (IPv6Parser.pyLower g) with
    | nil =>
      have hval0 : groupVal g = 0 := by
        rw [← hlowval, ← hexFold_zero_dropZeros]
        rw [show (IPv6Parser.pyLower g).dropWhile (· = '0') =
          IPv6Parser.lstripZeros (IPv6Parser.pyLower g) from rfl, ht]
        rfl
      rw [hval0]
      rw [show IPv6Parser.pyIntHex ['0'] = some 0 from by decide]
      rfl
    | cons d t' =>
      have hdz : d ≠ '0' := by
        have := dropWhile_head_false (p := fun c => decide (c = '0')) ht
        simpa using this
      have hsub : ∀ c ∈ d :: t', c ∈ IPv6Parser.pyLower g := by
        intro c hc
        exact (List.dropWhile_sublist _).mem (ht ▸ hc)
      have hthex : ∀ c ∈ d :: t', (IPv6Parser.hexVal c).isSome :=
        fun c hc => hlowhex c (hsub c hc)
      have hlownospace : ∀ c ∈ d :: t', IPv6Parser.isPySpace c = false := by
        intro c hc
        obtain ⟨x, hx, hcx⟩ := List.mem_map.mp (hsub c hc)
        rw [← hcx]
        exact (hexChar_props x (hhex x hx)).2.2.2.2.2.2.2.2.1
      have hdval : ∀ (bad : Char), Char.toLower '0' ≠ bad → True := fun _ _ => trivial
      have hdplus : d ≠ '+' := by
        obtain ⟨x, hx, hcx⟩ := List.mem_map.mp (hsub d (List.mem_cons_self _ _))
        rw [← hcx]
        exact (hexChar_props x (hhex x hx)).2.2.2.2.1
      have hdminus : d ≠ '-' := by
        obtain ⟨x, hx, hcx⟩ := List.mem_map.mp (hsub d (List.mem_cons_self _ _))
        rw [← hcx]
        exact (hexChar_props x (hhex x hx)).2.2.2.2.2.1
      rw [pyIntHex_no_sign (pyStrip_eq_self hlownospace) (by simpa using hdplus)
        (by simpa using hdminus)]
      rw [pyIntHexMag_no_marker (by simpa using hdz)]
      rw [phdGo_hex _ (by simp) hthex]
      have hfoldeq : hexFold 0 (d :: t') = groupVal g := by
        rw [← hlowval, ← hexFold_zero_dropZeros (IPv6Parser.pyLower g)]
        rw [show (IPv6Parser.pyLower g).dropWhile (· = '0') =
          IPv6Parser.lstripZeros (IPv6Parser.pyLower g) from rfl, ht]
      rw [hfoldeq]
      rfl

theorem packGroup_ok (v : Nat) (hlt : v < 65536) :
    IPv6Parser.packGroup ((v : Nat) : Int) = .ok [v / 256, v % 256] := by
  unfold IPv6Parser.packGroup
  rw [if_pos ⟨Int.natCast_nonneg v, by exact_mod_cast Nat.lt_succ_iff.mp hlt⟩]
  rw [Int.toNat_natCast]

theorem groups_to_bytes_valid (gs : List (List Char)) (hv : ∀ g ∈ gs, ValidGroup g) :
    IPv6Parser.groups_to_bytes (gs.map IPv6Parser.pyLower) =
      .ok (packBytes (gs.map groupVal)) := by
  induction gs with
  | nil => rfl
  | cons g rest ih =>
    have hg := hv g (List.mem_cons_self _ _)
    simp only [List.map_cons, IPv6Parser.groups_to_bytes, groupToVal_valid g hg,
      packGroup_ok _ (groupVal_lt g hg),
      ih (fun x hx => hv x (List.mem_cons_of_mem _ hx))]
    rfl

theorem lowered_group_props {gs : List (List Char)} (hv : ∀ g ∈ gs, ValidGroup g) :
    ∀ g ∈ gs.map IPv6Parser.pyLower,
      g ≠ [] ∧ (∀ x ∈ g, x ≠ ':') ∧ (∀ x ∈ g, IPv6Parser.isPySpace x = false) := by
  intro g hg
  obtain ⟨x, hx, hgx⟩ := List.mem_map.mp hg
  obtain ⟨hne, _, hhex⟩ := hv x hx
  subst hgx
  refine ⟨fun h => hne (List.map_eq_nil_iff.mp h), ?_, ?_⟩
  · intro c hc
    obtain ⟨y, hy, hcy⟩ := List.mem_map.mp hc
    rw [← hcy]
    exact (hexChar_props y (hhex y hy)).2.2.1
  · intro c hc
    obtain ⟨y, hy, hcy⟩ := List.mem_map.mp hc
    rw [← hcy]
    exact (hexChar_props y (hhex y hy)).2.2.2.2.2.2.2.2.1

theorem joinColon_props {gs : List (List Char)}
    (hg : ∀ g ∈ gs, g ≠ [] ∧ ∀ x ∈ g, x ≠ ':') (hne : gs ≠ []) :
    IPv6Parser.hasDoubleColon (joinColon gs) = false ∧
    ∃ c t, joinColon gs = c :: t ∧ c ≠ ':' := by
  induction gs with
  | nil => exact absurd rfl hne
  | cons g gs' ih =>
    obtain ⟨hgne, hgcol⟩ := hg g (List.mem_cons_self _ _)
    obtain ⟨d, gt, hgshape⟩ : ∃ d gt, g = d :: gt := by
      cases g with
      | nil => exact absurd rfl hgne
      | cons d gt => exact ⟨d, gt, rfl⟩
    cases gs' with
    | nil =>
      refine ⟨hasDC_of_colon_free hgcol, d, gt, hgshape, ?_⟩
      exact hgcol d (hgshape ▸ List.mem_cons_self _ _)
    | cons g' gs'' =>
      obtain ⟨hdc', c', t', hct', hc'⟩ :=
        ih (fun h hh => hg h (List.mem_cons_of_mem _ hh)) (by simp)
      have hjoin : joinColon (g :: g' :: gs'') = g ++ ':' :: joinColon (g' :: gs'') := rfl
      have h1 : IPv6Parser.hasDoubleColon (':' :: joinColon (g' :: gs'')) = false := by
        rw [hct', IPv6Parser.hasDoubleColon]
        rw [← hct', hdc']
        simp [hc']
      have h2 := hasDC_append_false hgcol h1
      refine ⟨by rw [hjoin]; exact h2, d, gt ++ ':' :: joinColon (g' :: gs''), ?_, ?_⟩
      · rw [hjoin, hgshape]
        rfl
      · exact hgcol d (hgshape ▸ List.mem_cons_self _ _)

theorem hasDC_joinColon {gs : List (List Char)}
    (hg : ∀ g ∈ gs, g ≠ [] ∧ ∀ x ∈ g, x ≠ ':') :
    IPv6Parser.hasDoubleColon (joinColon gs) = false := by
  cases gs with
  | nil => rfl
  | cons g gs' => exact (joinColon_props hg (by simp)).1

theorem joinColon_getLast {gs : List (List Char)}
    (hg : ∀ g ∈ gs, g ≠ [] ∧ ∀ x ∈ g, x ≠ ':') :
    (joinColon gs).getLast? ≠ some ':' := by
  induction gs with
  | nil => simp [joinColon]
  | cons g gs' ih =>
    cases gs' with
    | nil =>
      intro heq
      exact (hg g (List.mem_cons_self _ _)).2 ':' (List.mem_of_getLast?_eq_some heq) rfl
    | cons g' gs'' =>
      have hrest := ih (fun h hh => hg h (List.mem_cons_of_mem _ hh))
      obtain ⟨_, c', t', hct', _⟩ :=
        @joinColon_props (g' :: gs'') (fun h hh => hg h (List.mem_cons_of_mem _ hh))
          (by simp)
      show (g ++ ':' :: joinColon (g' :: gs'')).getLast? ≠ some ':'
      rw [List.getLast?_append]
      rw [hct', List.getLast?_cons_cons]
      rw [← hct']
      intro heq
      rcases Option.or_eq_some.mp heq with h1 | ⟨_, h2⟩
      · exact hrest h1
      · exact (hg g (List.mem_cons_self _ _)).2 ':' (List.mem_of_getLast?_eq_some h2) rfl

theorem joinColon_no_space {gs : List (List Char)}
    (hg : ∀ g ∈ gs, ∀ x ∈ g, IPv6Parser.isPySpace x = false) :
    ∀ c ∈ joinColon gs, IPv6Parser.isPySpace c = false := by
  intro c hc
  rcases mem_joinColon hc with hcol | ⟨g, hgmem, hcg⟩
  · subst hcol
    decide
  · exact hg g hgmem c hcg

/-- Parsing a fully expanded rendering of an address yields the packed group
values. -/
theorem parse_full (gs : List (List Char)) (h8 : gs.length = 8)
    (hv : ∀ g ∈ gs, ValidGroup g) :
    IPv6Parser.to_canonical_bytes (joinColon gs) = .ok (packBytes (gs.map groupVal)) := by
  have hprops := lowered_group_props hv
  have hlow1 : ∀ g ∈ gs.map IPv6Parser.pyLower, g ≠ [] ∧ ∀ x ∈ g, x ≠ ':' :=
    fun g hg => ⟨(hprops g hg).1, (hprops g hg).2.1⟩
  unfold IPv6Parser.to_canonical_bytes
  rw [pyLower_joinColon]
  rw [pyStrip_eq_self (joinColon_no_space (fun g hg => (hprops g hg).2.2))]
  dsimp only
  rw [hasDC_joinColon hlow1]
  rw [if_neg (by simp)]
  rw [splitOnChar_joinColon (by simp [show gs ≠ [] from by intro h; subst h; simp at h8])
    (fun g hg => (hlow1 g hg).2)]
  rw [if_neg (by simp [List.length_map, h8])]
  exact groups_to_bytes_valid gs hv

/-- Parsing a `::`-compressed rendering of an address yields the packed group
values, the compressed run standing for `nz` zero groups. -/
theorem parse_comp (gsL gsR : List (List Char)) (nz : Nat) (hnz : 1 ≤ nz)
    (hlen : gsL.length + nz + gsR.length = 8)
    (hv : ∀ g ∈ gsL ++ gsR, ValidGroup g) :
    IPv6Parser.to_canonical_bytes (joinColon gsL ++ ':' :: ':' :: joinColon gsR) =
      .ok (packBytes (gsL.map groupVal ++ List.replicate nz 0 ++ gsR.map groupVal)) := by
  have hvL : ∀ g ∈ gsL, ValidGroup g := fun g hg => hv g (List.mem_append_left _ hg)
  have hvR : ∀ g ∈ gsR, ValidGroup g := fun g hg => hv g (List.mem_append_right _ hg)
  have hpropsL := lowered_group_props hvL
  have hpropsR := lowered_group_props hvR
  have hlowL : ∀ g ∈ gsL.map IPv6Parser.pyLower, g ≠ [] ∧ ∀ x ∈ g, x ≠ ':' :=
    fun g hg => ⟨(hpropsL g hg).1, (hpropsL g hg).2.1⟩
  have hlowR : ∀ g ∈ gsR.map IPv6Parser.pyLower, g ≠ [] ∧ ∀ x ∈ g, x ≠ ':' :=
    fun g hg => ⟨(hpropsR g hg).1, (hpropsR g hg).2.1⟩
  unfold IPv6Parser.to_canonical_bytes
  have hlower : IPv6Parser.pyLower (joinColon gsL ++ ':' :: ':' :: joinColon gsR) =
      joinColon (gsL.map IPv6Parser.pyLower) ++ ':' :: ':' ::
        joinColon (gsR.map IPv6Parser.pyLower) := by
    rw [pyLower_append]
    rw [pyLower_joinColon]
    rw [show IPv6Parser.pyLower (':' :: ':' :: joinColon gsR) =
      ':' :: ':' :: IPv6Parser.pyLower (joinColon gsR) from rfl]
    rw [pyLower_joinColon]
  rw [hlower]
  have hnospace : ∀ c ∈ joinColon (gsL.map IPv6Parser.pyLower) ++ ':' :: ':' ::
      joinColon (gsR.map IPv6Parser.pyLower), IPv6Parser.isPySpace c = false := by
    intro c hc
    rcases List.mem_append.mp hc with h1 | h2
    · exact joinColon_no_space (fun g hg => (hpropsL g hg).2.2) c h1
    · rcases List.mem_cons.mp h2 with h3 | h4
      · subst h3; decide
      · rcases List.mem_cons.mp h4 with h5 | h6
        · subst h5; decide
        · exact joinColon_no_space (fun g hg => (hpropsR g hg).2.2) c h6
  rw [pyStrip_eq_self hnospace]
  dsimp only
  rw [hasDC_double, if_pos rfl]
  unfold IPv6Parser.expand_compressed
  rw [splitDC_double (hasDC_joinColon hlowL) (joinColon_getLast hlowL)
    (hasDC_joinColon hlowR)]
  dsimp only
  have hleft : (if joinColon (gsL.map IPv6Parser.pyLower) = [] then []
      else IPv6Parser.splitOnChar ':' (joinColon (gsL.map IPv6Parser.pyLower))) =
      gsL.map IPv6Parser.pyLower := by
    cases hgsL : gsL with
    | nil => simp [joinColon]
    | cons gh gt =>
      rw [if_neg (joinColon_ne_nil (by simp) (fun g hg => (hlowL g (hgsL ▸ hg)).1))]
      exact splitOnChar_joinColon (by simp) (fun g hg => (hlowL g (hgsL ▸ hg)).2)
  have hright : (if joinColon (gsR.map IPv6Parser.pyLower) = [] then []
      else IPv6Parser.splitOnChar ':' (joinColon (gsR.map IPv6Parser.pyLower))) =
      gsR.map IPv6Parser.pyLower := by
    cases hgsR : gsR with
    | nil => simp [joinColon]
    | cons gh gt =>
      rw [if_neg (joinColon_ne_nil (by simp) (fun g hg => (hlowR g (hgsR ▸ hg)).1))]
      exact splitOnChar_joinColon (by simp) (fun g hg => (hlowR g (hgsR ▸ hg)).2)
  simp only [hleft, hright, List.length_map]
  have hmissing : (8 : Int) - gsL.length - gsR.length = (nz : Int) := by
    have : (gsL.length : Int) + nz + gsR.length = 8 := by exact_mod_cast hlen
    omega
  rw [hmissing]
  rw [if_neg (by omega)]
  rw [Int.toNat_natCast]
  have hcombine : gsL.map IPv6Parser.pyLower ++ List.replicate nz ['0'] ++
      gsR.map IPv6Parser.pyLower =
      (gsL ++ List.replicate nz ['0'] ++ gsR).map IPv6Parser.pyLower := by
    rw [List.map_append, List.map_append, List.map_replicate]
    rfl
  rw [hcombine]
  rw [groups_to_bytes_valid _ (by
    intro g hg
    rcases List.mem_append.mp hg with h1 | h2
    · rcases List.mem_append.mp h1 with h3 | h4
      · exact hvL g h3
      · rw [List.eq_of_mem_replicate h4]
        exact ⟨by simp, by simp, by decide⟩
    · exact hvR g h2)]
  rw [List.map_append, List.map_append, List.map_replicate]
  rw [show groupVal ['0'] = 0 from by decide]

/-- Any well-formed textual form of an address parses to the packed group
values. -/
theorem parse_denotes {s : List Char} {vs : List Nat} (h : Denotes s vs) :
    IPv6Parser.to_canonical_bytes s = .ok (packBytes vs) := by
  rcases h with ⟨gs, h8, hv, hvs, hs⟩ | ⟨gsL, gsR, nz, hnz, hlen, hv, hvs, hs⟩
  · subst hs
    subst hvs
    exact parse_full gs h8 hv
  · subst hs
    subst hvs
    exact parse_comp gsL gsR nz hnz hlen hv

end IPv6Render

namespace IPv6Parser

theorem wrong_group_count_error (s : List Char)
    (h1 : hasDoubleColon (pyStrip (pyLower s)) = false)
    (h2 : (splitOnChar ':' (pyStrip (pyLower s))).length ≠ 8) :
    to_canonical_bytes s = .error errGroupCount := by
  unfold to_canonical_bytes
  dsimp only
  rw [h1]
  rw [if_neg (by simp)]
  rw [if_pos h2]

theorem bad_double_colon_error (s : List Char)
    (h1 : hasDoubleColon (pyStrip (pyLower s)) = true)
    (h2 : (splitOnDoubleColon (pyStrip (pyLower s))).length ≠ 2) :
    to_canonical_bytes s = .error errDoubleColon := by
  unfold to_canonical_bytes
  dsimp only
  rw [h1, if_pos rfl]
  unfold expand_compressed
  cases hsp : splitOnDoubleColon (pyStrip (pyLower s)) with
  | nil => rfl
  | cons L rest =>
    cases rest with
    | nil => rfl
    | cons R rest2 =>
      cases rest2 with
      | nil =>
        rw [hsp] at h2
        simp at h2
      | cons X rest3 => rfl

theorem too_many_groups_error (s : List Char) (L R : List Char)
    (h1 : hasDoubleColon (pyStrip (pyLower s)) = true)
    (h2 : splitOnDoubleColon (pyStrip (pyLower s)) = [L, R])
    (h3 : (8 : Int) - (if L = [] then ([] : List (List Char)) else splitOnChar ':' L).length
      - (if R = [] then ([] : List (List Char)) else splitOnChar ':' R).length < 0) :
    to_canonical_bytes s = .error errTooManyGroups := by
  unfold to_canonical_bytes
  dsimp only
  rw [h1, if_pos rfl]
  unfold expand_compressed
  rw [h2]
  dsimp only
  rw [if_pos h3]

end IPv6Parser

theorem process_line_skips {line : List Char} {e : String} (parts : List (List Key))
    (N : Nat) (h : IPv6Parser.to_canonical_bytes line = .error e) :
    IPv6UniqueCounter.process_line line parts N = parts := by
  unfold IPv6UniqueCounter.process_line
  rw [h]

theorem run_continues_after_bad_line (N : Nat) (ls1 ls2 : List (List Char))
    (bad : List Char) (parts : List (List Key)) (e : String)
    (h : IPv6Parser.to_canonical_bytes bad = .error e) :
    (ls1 ++ bad :: ls2).foldl (fun ps l => IPv6UniqueCounter.process_line l ps N) parts =
      (ls1 ++ ls2).foldl (fun ps l => IPv6UniqueCounter.process_line l ps N) parts := by
  rw [List.foldl_append, List.foldl_append, List.foldl_cons, process_line_skips _ N h]


/-! ### Claim theorems -/

/-- Two fixed 16-byte records used as concrete witnesses, with `recA < recB`
in the byte-lexicographic record order. -/
def recA : Key := [0, 0, 0, 0, 0, 0, 0, 0, 0, 0, 0, 0, 0, 0, 0, 1]

/-- Second concrete 16-byte record. -/
def recB : Key := [0, 0, 0, 0, 0, 0, 0, 0, 0, 0, 0, 0, 0, 0, 0, 2]

/-- The specification's concrete five-line scenario. -/
def scenarioInput : List Char :=
  ("2001:db8::1\n2001:0db8:0000:0000:0000:0000:0000:0001\n::1\n::1\nfe80::").toList

/-- A two-record stream fits inside a single block. -/
theorem splitBlocks_pair :
    PartitionProcessor.splitBlocks [recB, recA] = [[recB, recA]] := by
  have hle : ([recB, recA] : List Key).length ≤ PartitionProcessor.records_per_block := by
    norm_num [PartitionProcessor.records_per_block, PartitionProcessor.block_size,
      IPV6_BYTES_LEN]
  rw [PartitionProcessor.splitBlocks.eq_def]
  dsimp only
  rw [List.take_of_length_le hle, List.drop_eq_nil_of_le hle,
    PartitionProcessor.splitBlocks.eq_def]

/-- The merged sequence of the two-record stream, computed through the
merge-correctness theorem (the merged sequence is the unique sorted
permutation of the stream). -/
theorem externalMergeSeq_pair :
    PartitionProcessor.externalMergeSeq [recB, recA] = [recA, recB] := by
  obtain ⟨hperm, hsorted⟩ := PartitionProcessor.externalMergeSeq_spec [recB, recA]
  exact List.eq_of_perm_of_sorted (hperm.trans (List.Perm.swap recA recB []))
    hsorted (by decide)

/-- C1: whenever a run writes an integer to the output file, that integer
equals the cardinality of the set of canonical keys obtained from all
successfully parsed lines — the same result as one exact in-memory set. -/
theorem c1_total_is_distinct_count (c : IPv6UniqueCounter) (input : List Char) (t : Nat)
    (h : c.count_unique input = .ok t) : t = (parsedKeys input).toFinset.card := by
  by_cases hne : input = []
  · subst hne
    rw [IPv6UniqueCounter.count_unique, if_pos rfl] at h
    exact Except.noConfusion h
  · rw [count_unique_run c input hne] at h
    exact (Except.ok.inj h).symm

/-- Witness for C1: the specification's five-line scenario runs to the output
`3`, which the claim equates with the number of distinct canonical keys. -/
theorem c1_total_is_distinct_count_witness :
    3 = (parsedKeys scenarioInput).toFinset.card :=
  c1_total_is_distinct_count (IPv6UniqueCounter.mk 1024) scenarioInput 3 (by decide)

/-- C2 (code bug): `_process_partitions` absorbs a failed partition task into
the total — it reports the error and keeps summing the remaining partitions,
so a run with a failed task still returns a total (computed from an
incomplete set of counts) instead of aborting. -/
theorem c2_partition_failure_absorbed :
    IPv6UniqueCounter.process_partitions [.ok 2, .error "I/O error: read"] = 2 ∧
    (∀ (rs : List (Except String Nat)) (e : String),
      IPv6UniqueCounter.process_partitions (rs ++ [.error e]) =
        IPv6UniqueCounter.process_partitions rs) := by
  refine ⟨rfl, fun rs e => ?_⟩
  unfold IPv6UniqueCounter.process_partitions
  rw [List.foldl_append]
  rfl

/-- C3 (code bug): an empty input file makes `mmap` raise, so the run aborts
with no output instead of writing `0`; the single-line and repeated-line
boundary cases do produce `1`. -/
theorem c3_boundary_cases :
    (IPv6UniqueCounter.mk 1024).count_unique [] = .error "cannot mmap an empty file" ∧
    (IPv6UniqueCounter.mk 1024).count_unique ("::1".toList) = .ok 1 ∧
    (IPv6UniqueCounter.mk 1024).count_unique ("::1\n::1\n::1".toList) = .ok 1 := by
  refine ⟨rfl, by decide, by decide⟩

/-- C4: any two well-formed textual forms denoting the same address — one of
them possibly compressed with `::`, in any letter case, with or without
leading zeros — canonicalize to the identical 16-byte key; in particular the
specification's concrete pair does. -/
theorem c4_canonicalization_equivalence :
    (∀ (s₁ s₂ : List Char) (vs : List Nat), IPv6Render.Denotes s₁ vs →
      IPv6Render.Denotes s₂ vs →
      IPv6Parser.to_canonical_bytes s₁ = IPv6Parser.to_canonical_bytes s₂ ∧
      IPv6Parser.to_canonical_bytes s₁ = .ok (IPv6Render.packBytes vs)) ∧
    IPv6Parser.to_canonical_bytes ("2001:db8::1".toList) =
      IPv6Parser.to_canonical_bytes ("2001:0db8:0000:0000:0000:0000:0000:0001".toList) := by
  refine ⟨fun s₁ s₂ vs h1 h2 => ?_, by decide⟩
  rw [IPv6Render.parse_denotes h1, IPv6Render.parse_denotes h2]
  exact ⟨rfl, rfl⟩

/-- Witness for C4: a compressed and an expanded form of `::1` produce the
same canonical key. -/
theorem c4_canonicalization_equivalence_witness :
    IPv6Parser.to_canonical_bytes ("::1".toList) =
      IPv6Parser.to_canonical_bytes ("0:0:0:0:0:0:0:1".toList) :=
  (c4_canonicalization_equivalence.1 ("::1".toList) ("0:0:0:0:0:0:0:1".toList)
    [0, 0, 0, 0, 0, 0, 0, 1]
    (Or.inr ⟨[], [['1']], 7, by decide, by decide, by decide, by decide, by decide⟩)
    (Or.inl ⟨[['0'], ['0'], ['0'], ['0'], ['0'], ['0'], ['0'], ['1']],
      by decide, by decide, by decide, by decide⟩)).1

/-- C5: the partition hash is a total deterministic function of the key
bytes (equal keys land in the same partition, and every partition index is
below `N`), the partition-wise distinct counts sum to the global distinct
count, and the total is invariant under the partition count. -/
theorem c5_partition_sum_invariant (keys : List Key) (N : Nat) (hN : 1 ≤ N) :
    (∀ k1 k2 : Key, k1 = k2 →
      FastHasher.get_partition k1 N = FastHasher.get_partition k2 N) ∧
    (∀ k : Key, FastHasher.get_partition k N < N) ∧
    IPv6UniqueCounter.process_partitions
      ((partitionsOfKeys keys N).map PartitionProcessor.count_unique) =
      keys.toFinset.card ∧
    (∀ N2 : Nat, 1 ≤ N2 →
      IPv6UniqueCounter.process_partitions
        ((partitionsOfKeys keys N).map PartitionProcessor.count_unique) =
      IPv6UniqueCounter.process_partitions
        ((partitionsOfKeys keys N2).map PartitionProcessor.count_unique)) := by
  have main : ∀ M, 1 ≤ M →
      IPv6UniqueCounter.process_partitions
        ((partitionsOfKeys keys M).map PartitionProcessor.count_unique) =
      keys.toFinset.card := by
    intro M hM
    rw [List.map_congr_left (fun l _ => PartitionProcessor.count_unique_spec l),
      process_partitions_map_ok (fun l => l.toFinset.card)]
    unfold partitionsOfKeys
    rw [List.map_map, list_range_map_sum]
    simp only [Function.comp_apply]
    exact sum_fiber_card keys M hM
  exact ⟨fun k1 k2 h => by rw [h], fun k => FastHasher.get_partition_lt k hN,
    main N hN, fun N2 h2 => by rw [main N hN, main N2 h2]⟩

/-- Witness for C5: three keys with one duplicate, split over three
partitions, sum to the global distinct count 2. -/
theorem c5_partition_sum_invariant_witness :
    IPv6UniqueCounter.process_partitions
      ((partitionsOfKeys [recA, recB, recA] 3).map PartitionProcessor.count_unique) = 2 := by
  have h := (c5_partition_sum_invariant [recA, recB, recA] 3 (by norm_num)).2.2.1
  rw [h]
  decide

/-- C6: on any partition stream holding exactly `K` distinct records — with
arbitrary duplication and arbitrary ordering — the external-merge counting
path returns exactly `K`, the same result as the in-memory path and the
exact-set reference. -/
theorem c6_external_merge_exact (w : World) (l : List Key) (K : Nat)
    (hf : w.faults = []) (hwf : World.WF w) (hK : l.toFinset.card = K) :
    (PartitionProcessor.count_unique_external w l).2 = .ok K ∧
    PartitionProcessor.count_unique_in_memory l = K := by
  rw [PartitionProcessor.count_unique_external_spec l w hf hwf,
    PartitionProcessor.count_unique_in_memory_eq_card, hK]
  exact ⟨rfl, rfl⟩

/-- Witness for C6: a stream with three records and two distinct values is
counted as 2 by the external path. -/
theorem c6_external_merge_exact_witness :
    (PartitionProcessor.count_unique_external World.init [recB, recA, recB]).2 = .ok 2 ∧
    PartitionProcessor.count_unique_in_memory [recB, recA, recB] = 2 :=
  c6_external_merge_exact World.init [recB, recA, recB] 2 rfl
    World.WF_init (by decide)

/-- Counterexample for C7: `_external_sort` does write a merged output file
to disk — at its return a fresh temporary file holds the entire merged
sorted sequence, which `_count_unique_external` then scans, so the merge is
not an inline-counting single pass without a merged output file. -/
theorem c7_counterexample :
    (PartitionProcessor.external_sort World.init [recB, recA]).2 = .ok 1 ∧
    ((PartitionProcessor.external_sort World.init [recB, recA]).1).files.lookup 1 =
      some [recA, recB] ∧
    [recA, recB] = PartitionProcessor.externalMergeSeq [recB, recA] := by
  have hsp := PartitionProcessor.external_sort_spec [recB, recA] World.init rfl World.WF_init
  rw [splitBlocks_pair, externalMergeSeq_pair] at hsp
  refine ⟨by rw [hsp]; rfl, by rw [hsp]; rfl, externalMergeSeq_pair.symm⟩

/-- C7 (amended): the external path merges the runs into a merged output
temporary file on disk, the distinct count is computed by a separate linear
scan over that file's content after the merge, and the merged file is
deleted again before the counting call returns. -/
theorem c7_merge_writes_output_file (w : World) (input : List Key)
    (hf : w.faults = []) (hwf : World.WF w) :
    PartitionProcessor.external_sort w input =
      (⟨w.files ++ [(w.nextId + (PartitionProcessor.splitBlocks input).length,
          PartitionProcessor.externalMergeSeq input)],
        w.nextId + (PartitionProcessor.splitBlocks input).length + 1, []⟩,
       .ok (w.nextId + (PartitionProcessor.splitBlocks input).length)) ∧
    (PartitionProcessor.count_unique_external w input).2 =
      .ok (PartitionProcessor.scanCount (PartitionProcessor.externalMergeSeq input)) ∧
    ((PartitionProcessor.count_unique_external w input).1).files = w.files := by
  refine ⟨PartitionProcessor.external_sort_spec input w hf hwf, ?_, ?_⟩
  · rw [PartitionProcessor.count_unique_external_spec input w hf hwf,
      PartitionProcessor.scanCount_externalMergeSeq]
  · rw [PartitionProcessor.count_unique_external_spec input w hf hwf]

/-- Witness for C7: concrete two-record stream in the empty fault-free
world. -/
theorem c7_merge_writes_output_file_witness :
    (PartitionProcessor.count_unique_external World.init [recB, recA]).2 =
      .ok (PartitionProcessor.scanCount (PartitionProcessor.externalMergeSeq [recB, recA])) :=
  (c7_merge_writes_output_file World.init [recB, recA] rfl World.WF_init).2.1

/-- Counterexample for C8: the line `0:0:0:0:0:0:0:+1` is malformed address
text (`'+'` is not a hexadecimal digit), yet the canonicalizer accepts it —
`int(group, 16)` tolerates a sign — so parse errors are not raised exactly
for malformed text. -/
theorem c8_counterexample :
    IPv6Parser.to_canonical_bytes ("0:0:0:0:0:0:0:+1".toList) =
      .ok [0, 0, 0, 0, 0, 0, 0, 0, 0, 0, 0, 0, 0, 0, 0, 1] ∧
    '+' ∈ "0:0:0:0:0:0:0:+1".toList ∧
    IPv6Render.isHexDigitChar '+' = false ∧ '+' ≠ ':' := by
  refine ⟨by decide, by decide, by decide, by decide⟩

/-- C8 (amended): the canonicalizer raises a parse error on a wrong group
count, on a `'::'` split not yielding exactly two parts, and on too many
groups in a compressed address (`missing < 0`); every parse failure is
recoverable — the offending line leaves the partitions unchanged and
processing continues with the remaining lines — but the set of rejected
strings is not exactly the malformed ones (see the counterexample). -/
theorem c8_parse_errors :
    (∀ s : List Char,
      IPv6Parser.hasDoubleColon (IPv6Parser.pyStrip (IPv6Parser.pyLower s)) = false →
      (IPv6Parser.splitOnChar ':' (IPv6Parser.pyStrip (IPv6Parser.pyLower s))).length ≠ 8 →
      IPv6Parser.to_canonical_bytes s = .error IPv6Parser.errGroupCount) ∧
    (∀ s : List Char,
      IPv6Parser.hasDoubleColon (IPv6Parser.pyStrip (IPv6Parser.pyLower s)) = true →
      (IPv6Parser.splitOnDoubleColon (IPv6Parser.pyStrip (IPv6Parser.pyLower s))).length ≠ 2 →
      IPv6Parser.to_canonical_bytes s = .error IPv6Parser.errDoubleColon) ∧
    (∀ (s L R : List Char),
      IPv6Parser.hasDoubleColon (IPv6Parser.pyStrip (IPv6Parser.pyLower s)) = true →
      IPv6Parser.splitOnDoubleColon (IPv6Parser.pyStrip (IPv6Parser.pyLower s)) = [L, R] →
      (8 : Int) - (if L = [] then ([] : List (List Char))
        else IPv6Parser.splitOnChar ':' L).length -
        (if R = [] then ([] : List (List Char))
        else IPv6Parser.splitOnChar ':' R).length < 0 →
      IPv6Parser.to_canonical_bytes s = .error IPv6Parser.errTooManyGroups) ∧
    (∀ (line : List Char) (parts : List (List Key)) (N : Nat) (e : String),
      IPv6Parser.to_canonical_bytes line = .error e →
      IPv6UniqueCounter.process_line line parts N = parts) ∧
    (∀ (N : Nat) (ls1 ls2 : List (List Char)) (bad : List Char)
      (parts : List (List Key)) (e : String),
      IPv6Parser.to_canonical_bytes bad = .error e →
      (ls1 ++ bad :: ls2).foldl
        (fun ps l => IPv6UniqueCounter.process_line l ps N) parts =
      (ls1 ++ ls2).foldl
        (fun ps l => IPv6UniqueCounter.process_line l ps N) parts) :=
  ⟨IPv6Parser.wrong_group_count_error, IPv6Parser.bad_double_colon_error,
    IPv6Parser.too_many_groups_error,
    fun _ parts N e h => process_line_skips parts N h,
    fun N ls1 ls2 _ parts e h => run_continues_after_bad_line N ls1 ls2 _ parts e h⟩

/-- Witness for C8: a two-group line is rejected with the group-count error
and a nonsense line is skipped, the partitions left unchanged. -/
theorem c8_parse_errors_witness :
    IPv6Parser.to_canonical_bytes ("1:2".toList) = .error IPv6Parser.errGroupCount ∧
    IPv6UniqueCounter.process_line ("nonsense".toList) [[], []] 2 = [[], []] := by
  constructor
  · exact c8_parse_errors.1 ("1:2".toList) (by decide) (by decide)
  · exact c8_parse_errors.2.2.2.1 ("nonsense".toList) [[], []] 2
      IPv6Parser.errGroupCount (by decide)

/-- Counterexample for C9: with an I/O error injected at the merge-phase
read of a run file, the counting call returns with an error while Run File
`0`, created in the split+sort phase, still exists — run files are not
deleted on every exit path. -/
theorem c9_counterexample :
    (PartitionProcessor.count_unique_external
      ⟨[], 0, [false, false, false, true]⟩ [recB, recA]).2 = .error "I/O error: read" ∧
    ((PartitionProcessor.count_unique_external
      ⟨[], 0, [false, false, false, true]⟩ [recB, recA]).1).files.lookup 0 =
      some [recA, recB] := by
  have hes : PartitionProcessor.external_sort ⟨[], 0, [false, false, false, true]⟩
      [recB, recA] =
      (⟨[(0, [recA, recB]), (1, [])], 2, []⟩, .error "I/O error: read") := by
    unfold PartitionProcessor.external_sort
    rw [splitBlocks_pair]
    rfl
  have hcue : PartitionProcessor.count_unique_external
      ⟨[], 0, [false, false, false, true]⟩ [recB, recA] =
      (⟨[(0, [recA, recB]), (1, [])], 2, []⟩, .error "I/O error: read") := by
    unfold PartitionProcessor.count_unique_external
    rw [hes]
  exact ⟨by rw [hcue], by rw [hcue]; rfl⟩

/-- C9 (amended): on the success path every Run File is deleted by the time
the call returns — `_external_sort` leaves behind only the merged result
file, and after the full counting call the file store is exactly as before;
on a failure during the merge phase Run Files may remain (see the
counterexample). -/
theorem c9_runfile_cleanup (w : World) (input : List Key)
    (hf : w.faults = []) (hwf : World.WF w) :
    ((PartitionProcessor.external_sort w input).1).files =
      w.files ++ [(w.nextId + (PartitionProcessor.splitBlocks input).length,
        PartitionProcessor.externalMergeSeq input)] ∧
    ((PartitionProcessor.count_unique_external w input).1).files = w.files := by
  rw [PartitionProcessor.external_sort_spec input w hf hwf,
    PartitionProcessor.count_unique_external_spec input w hf hwf]
  exact ⟨rfl, rfl⟩

/-- Witness for C9: concrete two-record stream in the empty fault-free
world. -/
theorem c9_runfile_cleanup_witness :
    ((PartitionProcessor.count_unique_external World.init [recB, recA]).1).files = [] :=
  (c9_runfile_cleanup World.init [recB, recA] rfl World.WF_init).2

/-- C10: the memory-limit argument has no effect on the computed result —
any two values give identical runs on every input, because the strategy
threshold is the fixed constant `TARGET_PARTITION_SIZE` (64 MiB) and the
stored `memory_limit_mb` field is never read. -/
theorem c10_memory_limit_no_effect :
    (∀ (m1 m2 : Nat) (input : List Char),
      (IPv6UniqueCounter.mk m1).count_unique input =
        (IPv6UniqueCounter.mk m2).count_unique input) ∧
    TARGET_PARTITION_SIZE = 67108864 ∧
    (∀ records : List Key, PartitionProcessor.count_unique records =
      if IPV6_BYTES_LEN * records.length ≤ TARGET_PARTITION_SIZE then
        .ok (PartitionProcessor.count_unique_in_memory records)
      else (PartitionProcessor.count_unique_external World.init records).2) :=
  ⟨fun _ _ _ => rfl, rfl, fun _ => rfl⟩
